import Mathlib

/-!
Verification of the graph-coloring decision engine of ML-CNP.

The development embeds `src/graph.rs`, `src/algo/naive.rs` and
`src/algo/heuristic.rs` as executable Lean functions.  Mutable Rust state
(`self.colors`, `self.domains`, the `unused_colors` set and the
`unused_nodes` pool) is threaded explicitly through a state record.  The
`nohash` integer hash sets have unspecified iteration order; the embedding
fixes the deterministic instance that enumerates a set in ascending order
and picks the least element as `iter().next()`.  Rust's stable
`sort_by_key` is modelled by `List.insertionSort`, which is stable.  The
recursive searches take an explicit fuel argument; `size + 1` units make
the fuel irrelevant, which the main lemmas prove.
-/

namespace MLCNP

/-- Rust struct `VecVecGraph` (src/graph.rs): node count plus per-node
adjacency lists. -/
structure VecVecGraph where
  size : Nat
  edges : List (List Nat)
deriving Repr, DecidableEq

namespace VecVecGraph

/-- `VecVecGraph::new(size)`: empty adjacency list for every node. -/
def new (n : Nat) : VecVecGraph := ⟨n, List.replicate n []⟩

/-- Helper for `add_edge`: push `x` onto the `i`-th list. -/
def pushAt (l : List (List Nat)) (i x : Nat) : List (List Nat) :=
  l.set i (l.getD i [] ++ [x])

/-- `VecVecGraph::add_edge(from, to)`: inserts `to` into `from`'s neighbor
list and `from` into `to`'s list. -/
def addEdge (g : VecVecGraph) (a b : Nat) : VecVecGraph :=
  ⟨g.size, pushAt (pushAt g.edges a b) b a⟩

/-- Total neighbor accessor used inside the search algorithms.  The Rust
code indexes `self.edges[node]` directly; at every algorithm call site the
index is in range, where both agree. -/
def nbrs (g : VecVecGraph) (m : Nat) : List Nat := g.edges.getD m []

/-- The failure mode of neighbor lookup (spec section 7). -/
inductive GraphError
  | OutOfRange
deriving Repr, DecidableEq

/-- `VecVecGraph::neighbors(node)`: `&self.edges[node]`.  Vec indexing
fails on an out-of-range index, modelled as an `OutOfRange` error. -/
def neighbors (g : VecVecGraph) (node : Nat) : Except GraphError (List Nat) :=
  match g.edges.get? node with
  | some l => Except.ok l
  | none => Except.error VecVecGraph.GraphError.OutOfRange

/-- `VecVecGraph::edges()`: every `(from, to)` pair read off from each
node's adjacency list. -/
def edgesList (g : VecVecGraph) : List (Nat × Nat) :=
  g.edges.enum.flatMap (fun fa => fa.2.map (fun t => (fa.1, t)))

/-- Well-formedness of a graph (spec section 3): the adjacency vector has
one entry per node, neighbor indices are below `size`, adjacency is
symmetric, and there are no self-loops. -/
def WF (g : VecVecGraph) : Prop :=
  g.edges.length = g.size
    ∧ (∀ m < g.size, ∀ p ∈ g.nbrs m, p < g.size)
    ∧ (∀ m < g.size, ∀ p ∈ g.nbrs m, m ∈ g.nbrs p)
    ∧ (∀ m < g.size, m ∉ g.nbrs m)

instance : DecidablePred WF := fun g => by
  unfold WF
  infer_instance

end VecVecGraph

/-- The 5-cycle of spec scenario 1, built edge by edge as the tests do. -/
def cycle5 : VecVecGraph :=
  (((((VecVecGraph.new 5).addEdge 0 1).addEdge 1 2).addEdge 2 3).addEdge 3 4).addEdge 4 0

/-- Rust `Vec<Option<Color>>::into_iter().collect::<Option<Vec<Color>>>()`:
`some` of the values iff every entry is assigned. -/
def collectColors : List (Option Nat) → Option (List Nat)
  | [] => some []
  | none :: _ => none
  | some c :: rest => (collectColors rest).map (c :: ·)

/-- A complete proper coloring of `g` with `k` colors. -/
def Proper (g : VecVecGraph) (k : Nat) (cs : List Nat) : Prop :=
  cs.length = g.size ∧ (∀ c ∈ cs, c < k)
    ∧ ∀ m < g.size, ∀ p ∈ g.nbrs m, cs.getD m 0 ≠ cs.getD p 0

instance (g : VecVecGraph) (k : Nat) (cs : List Nat) : Decidable (Proper g k cs) := by
  unfold Proper
  infer_instance

/-- `cs` agrees with the partial assignment `colors` wherever the latter is
defined. -/
def Extends (colors : List (Option Nat)) (cs : List Nat) : Prop :=
  ∀ m c, colors.getD m none = some c → cs.getD m 0 = c

/-- Modelled from the spec: `validate(graph, assignment)` is true iff for
every edge `(a, b)` reported by the graph, `assignment[a] ≠ assignment[b]`.
The validator is exercised by the repository tests but its definition is
not among the provided sources. -/
def validate (g : VecVecGraph) (cs : List Nat) : Bool :=
  g.edgesList.all (fun e => !(cs.getD e.1 0 == cs.getD e.2 0))

/-! ### Naive coloring search (src/algo/naive.rs) -/

/-- The conflict test of `NaiveColoring::search`: some neighbor of `node`
currently holds color `c`. -/
def conflictN (g : VecVecGraph) (colors : List (Option Nat)) (node c : Nat) : Bool :=
  (g.nbrs node).any (fun p => colors.getD p none == some c)

/-- The color loop of `NaiveColoring::search` (naive.rs lines 27-42):
skip a conflicting color, otherwise assign, recurse, and on failure
unassign before trying the next color. -/
def nloop (g : VecVecGraph) (rec : List (Option Nat) → Bool × List (Option Nat)) (node : Nat) :
    List Nat → List (Option Nat) → Bool × List (Option Nat)
  | [], colors => (false, colors)
  | c :: rest, colors =>
    if conflictN g colors node c then nloop g rec node rest colors
    else
      match rec (colors.set node (some c)) with
      | (true, colors₁) => (true, colors₁)
      | (false, colors₁) => nloop g rec node rest (colors₁.set node none)

/-- `NaiveColoring::search` with fuel.  The Rust recursion starts at node 0
and stops at `node = size`, so `size + 1 - node` units of fuel suffice. -/
def nsearch (g : VecVecGraph) (k : Nat) :
    Nat → Nat → List (Option Nat) → Bool × List (Option Nat)
  | 0, _, colors => (false, colors)
  | fuel + 1, node, colors =>
    if node = g.size then (true, colors)
    else nloop g (nsearch g k fuel (node + 1)) node (List.range k) colors

/-- `NaiveColoring::create(k, graph)` followed by running the search and
collecting, as `color` does. -/
def NaiveColoring.colorRun (g : VecVecGraph) (k : Nat) : Option (List Nat) :=
  collectColors (nsearch g k (g.size + 1) 0 (List.replicate g.size none)).2

/-- `NaiveColoring::color(&mut self, _color_num)`: the argument is ignored
and the create-time `color_num` is used. -/
def NaiveColoring.color (g : VecVecGraph) (k : Nat) (colorCount : Nat) : Option (List Nat) :=
  NaiveColoring.colorRun g k

/-! ### Heuristic coloring search (src/algo/heuristic.rs) -/

/-- The mutable state of a heuristic search: `self.colors`, `self.domains`
and the two `&mut` parameters `unused_colors` and `unused_nodes`. -/
structure HState where
  colors : List (Option Nat)
  domains : List (Finset Nat)
  unused : Finset Nat
  pool : List Nat
deriving DecidableEq

/-- The sort key of `order_colors`: the number of uncolored neighbors of
`node` whose domain still contains the color. -/
def impact (g : VecVecGraph) (colors : List (Option Nat)) (domains : List (Finset Nat))
    (node c : Nat) : Nat :=
  ((g.nbrs node).filter
    (fun p => (colors.getD p none).isNone && decide (c ∈ domains.getD p ∅))).length

/-- Ascending enumeration of a finite set of naturals: the deterministic
instance fixed for the unspecified hash-set iteration order. -/
def sortedList (k : Nat) (s : Finset Nat) : List Nat :=
  (List.range k).filter (fun c => decide (c ∈ s))

/-- `HeuristicColoring::order_colors` (heuristic.rs lines 30-53): the
candidate list is the node's domain, with the globally unused colors
collapsed into one least representative, stably sorted by ascending
impact. -/
def order_colors (g : VecVecGraph) (k : Nat) (colors : List (Option Nat))
    (domains : List (Finset Nat)) (node : Nat) (unused : Finset Nat) : List Nat :=
  let base : List Nat :=
    if h : unused = ∅ then sortedList k (domains.getD node ∅)
    else
      sortedList k (domains.getD node ∅ \ unused) ++
        [unused.min' (Finset.nonempty_iff_ne_empty.mpr h)]
  base.insertionSort (fun a b => impact g colors domains node a ≤ impact g colors domains node b)

/-- `HeuristicColoring::backtrack` (lines 55-59): re-insert every recorded
removal into its domain. -/
def backtrack (domains : List (Finset Nat)) (removals : List (Nat × Nat)) :
    List (Finset Nat) :=
  removals.foldl (fun ds pc => ds.set pc.1 (insert pc.2 (ds.getD pc.1 ∅))) domains

/-- The neighbor loop of `HeuristicColoring::forward_check` (lines 65-80):
remove the color from every uncolored neighbor's domain, recording the
removal; if a domain empties, restore everything and fail. -/
def fcLoop (colors : List (Option Nat)) (c : Nat) :
    List Nat → List (Finset Nat) → List (Nat × Nat) →
      Bool × List (Finset Nat) × List (Nat × Nat)
  | [], domains, rem => (true, domains, rem)
  | p :: rest, domains, rem =>
    if (colors.getD p none).isNone ∧ c ∈ domains.getD p ∅ then
      let domains₁ := domains.set p ((domains.getD p ∅).erase c)
      let rem₁ := (p, c) :: rem
      if domains₁.getD p ∅ = ∅ then (false, backtrack domains₁ rem₁, [])
      else fcLoop colors c rest domains₁ rem₁
    else fcLoop colors c rest domains rem

/-- `HeuristicColoring::forward_check` (lines 62-83). -/
def forward_check (g : VecVecGraph) (colors : List (Option Nat)) (domains : List (Finset Nat))
    (node c : Nat) : Bool × List (Finset Nat) × List (Nat × Nat) :=
  fcLoop colors c (g.nbrs node) domains []

/-- Lines 113-114 of heuristic.rs: remember whether the color was globally
unused, remove it from the unused set and record the assignment. -/
def assignColor (s : HState) (node c : Nat) : Bool × HState :=
  (decide (c ∈ s.unused),
    { s with colors := s.colors.set node (some c), unused := s.unused.erase c })

/-- Lines 123-126: undo the assignment, restoring the unused set exactly
when the assignment had removed the color from it. -/
def undoColor (s : HState) (node c : Nat) (removed : Bool) : HState :=
  { s with
    colors := s.colors.set node none,
    unused := if removed then insert c s.unused else s.unused }

/-- Line 116: stable sort of the pool by descending domain size
(Rust sorts ascending by the negated length). -/
def pickSort (domains : List (Finset Nat)) (pool : List Nat) : List Nat :=
  pool.insertionSort (fun a b => (domains.getD b ∅).card ≤ (domains.getD a ∅).card)

/-- The candidate-color loop of `HeuristicColoring::search`
(lines 97-130): skip on a direct neighbor conflict, forward check, assign,
branch on the pool node of smallest domain, and on failure undo the
assignment, the unused-set removal, the pool removal and the domain
removals. -/
def hloop (g : VecVecGraph) (rec : Nat → HState → Bool × HState) (node : Nat) :
    List Nat → HState → Bool × HState
  | [], s => (false, s)
  | c :: rest, s =>
    if (g.nbrs node).any (fun p => s.colors.getD p none == some c) then
      hloop g rec node rest s
    else
      match forward_check g s.colors s.domains node c with
      | (false, domains₁, _) => hloop g rec node rest { s with domains := domains₁ }
      | (true, domains₁, rem) =>
        let (removed, s₁) := assignColor { s with domains := domains₁ } node c
        let sorted := pickSort s₁.domains s₁.pool
        let next := sorted.getLast?.getD 0
        let s₂ := { s₁ with pool := sorted.dropLast }
        match rec next s₂ with
        | (true, s₃) => (true, s₃)
        | (false, s₃) =>
          hloop g rec node rest
            { undoColor s₃ node c removed with
              pool := s₃.pool ++ [next],
              domains := backtrack s₃.domains rem }

/-- `HeuristicColoring::search` with fuel (one unit per recursive call;
`size + 1` units suffice from the top). -/
def hsearch (g : VecVecGraph) (k : Nat) : Nat → Nat → HState → Bool × HState
  | 0, _, s => (false, s)
  | fuel + 1, node, s =>
    if s.pool = [] then (true, s)
    else hloop g (hsearch g k fuel) node (order_colors g k s.colors s.domains node s.unused) s

/-- `HeuristicColoring::create(k, graph)` followed by `color(k)`
(lines 137-141): fresh full domains, every color unused, every node
pooled, search from node 0, then collect `self.colors`. -/
def HeuristicColoring.color (g : VecVecGraph) (k : Nat) : Option (List Nat) :=
  let s₀ : HState :=
    { colors := List.replicate g.size none,
      domains := List.replicate g.size (Finset.range k),
      unused := Finset.range k,
      pool := List.range g.size }
  collectColors (hsearch g k (g.size + 1) 0 s₀).2.colors

/-! ### List and assignment utilities -/

theorem getD_of_length_le {α : Type} {l : List α} {i : Nat} {d : α} (h : l.length ≤ i) :
    l.getD i d = d := by
  simp [List.getD_eq_getElem?_getD, List.getElem?_eq_none h]

theorem getD_set_self {α : Type} {l : List α} {i : Nat} {a d : α} (h : i < l.length) :
    (l.set i a).getD i d = a := by
  simp [List.getD_eq_getElem?_getD, List.getElem?_set_self h]

theorem getD_set_ne {α : Type} {l : List α} {i j : Nat} {a d : α} (h : j ≠ i) :
    (l.set i a).getD j d = l.getD j d := by
  simp [List.getD_eq_getElem?_getD, List.getElem?_set_ne (Ne.symm h)]

theorem getD_some_lt_length {l : List (Option Nat)} {i c : Nat}
    (h : l.getD i none = some c) : i < l.length := by
  by_contra hlen
  rw [getD_of_length_le (Nat.le_of_not_lt hlen)] at h
  cases h

theorem set_none_cancel {l : List (Option Nat)} {i : Nat} (h : l.getD i none = none) :
    l.set i none = l := by
  by_cases hlen : i < l.length
  · apply List.ext_getElem?
    intro j
    by_cases hj : j = i
    · subst hj
      rw [List.getElem?_set_self hlen]
      rw [List.getD_eq_getElem?_getD] at h
      cases hx : l[j]? with
      | none => simp at hx; omega
      | some v => simp [hx] at h; simp [hx, h]
    · rw [List.getElem?_set_ne (Ne.symm hj)]
  · exact List.set_eq_of_length_le (Nat.le_of_not_lt hlen)

theorem getD_replicate_none {n i : Nat} :
    (List.replicate n (none : Option Nat)).getD i none = none := by
  by_cases h : i < n
  · rw [List.getD_eq_getElem?_getD, List.getElem?_replicate]
    simp [h]
  · exact getD_of_length_le (by simpa using Nat.le_of_not_lt h)

theorem getD_map_some {out : List Nat} {m : Nat} (h : m < out.length) :
    (out.map some).getD m none = some (out.getD m 0) := by
  simp [List.getD_eq_getElem?_getD, List.getElem?_map, List.getElem?_eq_getElem h]

theorem getD_mem {α : Type} {l : List α} {i : Nat} {d : α} (h : i < l.length) :
    l.getD i d ∈ l := by
  rw [List.getD_eq_getElem?_getD, List.getElem?_eq_getElem h]
  exact List.getElem_mem h

/-- Decode a fully assigned color vector. -/
theorem exists_map_some {colors : List (Option Nat)}
    (h : ∀ o ∈ colors, o ≠ none) : ∃ out : List Nat, colors = out.map some := by
  induction colors with
  | nil => exact ⟨[], rfl⟩
  | cons o rest ih =>
    obtain ⟨out, hout⟩ := ih (fun o' ho' => h o' (List.mem_cons_of_mem _ ho'))
    cases o with
    | none => exact absurd rfl (h none (List.mem_cons_self _ _))
    | some c => exact ⟨c :: out, by simp [hout]⟩

theorem collectColors_map_some (out : List Nat) : collectColors (out.map some) = some out := by
  induction out with
  | nil => rfl
  | cons c rest ih => simp [collectColors, ih]

theorem collectColors_replicate_none {n : Nat} (h : 0 < n) :
    collectColors (List.replicate n none) = none := by
  cases n with
  | zero => omega
  | succ m => simp [List.replicate_succ, collectColors]

/-- Lexicographic order on color lists, least colors first. -/
def lexLe : List Nat → List Nat → Prop
  | [], _ => True
  | _ :: _, [] => False
  | a :: as, b :: bs => a < b ∨ (a = b ∧ lexLe as bs)

theorem lexLe_nil (l : List Nat) : lexLe [] l := trivial

/-! ### Correctness of the naive search -/

/-- The invariant of `NaiveColoring::search` at entry with current `node`:
nodes below `node` are properly colored with colors below `k`, nodes from
`node` on are unassigned. -/
def NInv (g : VecVecGraph) (k node : Nat) (colors : List (Option Nat)) : Prop :=
  colors.length = g.size ∧ node ≤ g.size
    ∧ (∀ m, node ≤ m → colors.getD m none = none)
    ∧ (∀ m, m < node → ∃ c, c < k ∧ colors.getD m none = some c)
    ∧ (∀ m, m < g.size → ∀ p ∈ g.nbrs m, ∀ c, colors.getD m none = some c →
        colors.getD p none ≠ some c)

theorem nsearch_spec (g : VecVecGraph) (hg : g.WF) (k : Nat) :
    ∀ fuel node colors, NInv g k node colors → g.size - node < fuel →
      ((nsearch g k fuel node colors).1 = true →
        ∃ out : List Nat, (nsearch g k fuel node colors).2 = out.map some ∧ Proper g k out ∧
          Extends colors out ∧
          ∀ out', Proper g k out' → Extends colors out' →
            lexLe (out.drop node) (out'.drop node))
      ∧ ((nsearch g k fuel node colors).1 = false →
        (nsearch g k fuel node colors).2 = colors ∧
          ∀ out', Proper g k out' → Extends colors out' → False) := by
  obtain ⟨hlen, hval, hsym, hirr⟩ := hg
  intro fuel
  induction fuel with
  | zero => intro node colors _ hfuel; omega
  | succ fuel ih =>
    intro node colors hinv hfuel
    obtain ⟨hclen, hnle, hnone, hsome, hpp⟩ := hinv
    by_cases hterm : node = g.size
    · -- terminal: every node is colored, the result is forced
      subst hterm
      have hall : ∀ o ∈ colors, o ≠ none := by
        intro o ho hno
        subst hno
        obtain ⟨i, hi, hget⟩ := List.mem_iff_getElem.mp ho
        have hgd : colors.getD i none = none := by
          rw [List.getD_eq_getElem?_getD, List.getElem?_eq_getElem hi, hget]
          rfl
        obtain ⟨c, _, hc⟩ := hsome i (by omega)
        rw [hgd] at hc
        cases hc
      obtain ⟨out, hout⟩ := exists_map_some hall
      have houtlen : out.length = g.size := by
        have := congrArg List.length hout
        simpa [hclen] using this.symm
      have hext : Extends colors out := by
        intro m c hm
        have hmlt : m < colors.length := getD_some_lt_length hm
        rw [hout] at hm
        rw [getD_map_some (by omega : m < out.length)] at hm
        exact Option.some_inj.mp hm
      constructor
      · intro _
        refine ⟨out, by simp [nsearch, hout], ⟨houtlen, ?_, ?_⟩, hext, ?_⟩
        · intro c hc
          have : some c ∈ colors := by
            rw [hout]; exact List.mem_map_of_mem some hc
          obtain ⟨i, hi, hget⟩ := List.mem_iff_getElem.mp this
          obtain ⟨c', hc', hgd⟩ := hsome i (by omega)
          rw [List.getD_eq_getElem?_getD, List.getElem?_eq_getElem hi, hget] at hgd
          simp at hgd
          omega
        · intro m hm p hp
          obtain ⟨c, _, hc⟩ := hsome m (by omega)
          have hplt : p < g.size := hval m hm p hp
          have hne := hpp m hm p hp c hc
          have h1 : out.getD m 0 = c := hext m c hc
          intro heq
          apply hne
          have h2 : colors.getD p none = some (out.getD p 0) := by
            obtain ⟨c', _, hc'⟩ := hsome p (by omega)
            rw [hc', hext p c' hc']
          rw [h2, ← heq, h1]
        · intro out' _ _
          have hd : out.drop g.size = [] := by
            apply List.drop_eq_nil_of_le
            omega
          rw [hd]
          exact lexLe_nil _
      · intro hfalse
        simp [nsearch] at hfalse
    · -- recursive case
      have hnlt : node < g.size := Nat.lt_of_le_of_ne hnle hterm
      -- inner induction over the candidate color list
      have loop : ∀ cs colors', List.Pairwise (· < ·) cs → (∀ c ∈ cs, c < k) →
          NInv g k node colors' →
          ((nloop g (nsearch g k fuel (node + 1)) node cs colors').1 = true →
            ∃ out : List Nat,
              (nloop g (nsearch g k fuel (node + 1)) node cs colors').2 = out.map some ∧
              Proper g k out ∧ Extends colors' out ∧
              ∀ out', Proper g k out' → Extends colors' out' → out'.getD node 0 ∈ cs →
                lexLe (out.drop node) (out'.drop node))
          ∧ ((nloop g (nsearch g k fuel (node + 1)) node cs colors').1 = false →
            (nloop g (nsearch g k fuel (node + 1)) node cs colors').2 = colors' ∧
              ∀ out', Proper g k out' → Extends colors' out' → out'.getD node 0 ∈ cs →
                False) := by
        intro cs
        induction cs with
        | nil =>
          intro colors' _ _ _
          refine ⟨by intro h; simp [nloop] at h, by intro _; exact ⟨rfl, by simp⟩⟩
        | cons c rest ihc =>
          intro colors' hpw hck hinv'
          obtain ⟨hclen', hnle', hnone', hsome', hpp'⟩ := hinv'
          have hnodeNone : colors'.getD node none = none := hnone' node (Nat.le_refl _)
          have hpwrest := (List.pairwise_cons.mp hpw).2
          have hckrest : ∀ c' ∈ rest, c' < k :=
            fun c' hc' => hck c' (List.mem_cons_of_mem _ hc')
          by_cases hcf : conflictN g colors' node c = true
          · -- a neighbor already holds c: this color is impossible
            have hstep : nloop g (nsearch g k fuel (node + 1)) node (c :: rest) colors'
                = nloop g (nsearch g k fuel (node + 1)) node rest colors' := by
              simp [nloop, hcf]
            have hex : ∃ p ∈ g.nbrs node, colors'.getD p none = some c := by
              simpa [conflictN] using hcf
            obtain ⟨p, hp, hpcol⟩ := hex
            have hcimp : ∀ out', Proper g k out' → Extends colors' out' →
                out'.getD node 0 = c → False := by
              intro out' hprop hext heq
              have hpcv : out'.getD p 0 = c := hext p c hpcol
              exact hprop.2.2 node hnlt p hp (by rw [heq, hpcv])
            obtain ⟨htc, hfc⟩ := ihc colors' hpwrest hckrest
              ⟨hclen', hnle', hnone', hsome', hpp'⟩
            rw [hstep]
            constructor
            · intro htr
              obtain ⟨out, h1, h2, h3, h4⟩ := htc htr
              refine ⟨out, h1, h2, h3, ?_⟩
              intro out' hprop hext hmem
              rcases List.mem_cons.mp hmem with heq | hmem'
              · exact absurd heq (fun heq => hcimp out' hprop hext heq)
              · exact h4 out' hprop hext hmem'
            · intro hfl
              obtain ⟨h1, h2⟩ := hfc hfl
              refine ⟨h1, ?_⟩
              intro out' hprop hext hmem
              rcases List.mem_cons.mp hmem with heq | hmem'
              · exact hcimp out' hprop hext heq
              · exact h2 out' hprop hext hmem'
          · -- try color c
            have hcf' : conflictN g colors' node c = false := by
              simpa using hcf
            have hck0 : c < k := hck c (List.mem_cons_self _ _)
            have hnoc : ∀ p ∈ g.nbrs node, colors'.getD p none ≠ some c := by
              simpa [conflictN] using hcf'

            obtain ⟨colors₁, hcolors₁⟩ :
                ∃ l : List (Option Nat), l = colors'.set node (some c) := ⟨_, rfl⟩
            have hinv₁ : NInv g k (node + 1) colors₁ := by
              refine ⟨by rw [hcolors₁]; simp [hclen'], by omega, ?_, ?_, ?_⟩
              · intro m hm
                rw [hcolors₁, getD_set_ne (by omega : m ≠ node)]
                exact hnone' m (by omega)
              · intro m hm
                by_cases hmn : m = node
                · refine ⟨c, hck0, ?_⟩
                  rw [hmn, hcolors₁]
                  exact getD_set_self (by omega)
                · obtain ⟨c', hc', hgd⟩ := hsome' m (by omega)
                  refine ⟨c', hc', ?_⟩
                  rw [hcolors₁, getD_set_ne hmn]
                  exact hgd
              · intro m hm p hp c' hmc'
                rw [hcolors₁] at hmc' ⊢
                by_cases hmn : m = node
                · rw [hmn, getD_set_self (by omega)] at hmc'
                  have hcc : c = c' := by simpa using hmc'
                  by_cases hpn : p = node
                  · rw [hmn, hpn] at hp
                    exact absurd hp (hirr node hnlt)
                  · rw [getD_set_ne hpn, ← hcc]
                    apply hnoc p
                    rw [← hmn]
                    exact hp
                · rw [getD_set_ne hmn] at hmc'
                  by_cases hpn : p = node
                  · rw [hpn, getD_set_self (by omega)]
                    intro hsomeeq
                    have hcc : c = c' := by simpa using hsomeeq
                    have hpn' : node ∈ g.nbrs m := by rw [← hpn]; exact hp
                    have hmnb : m ∈ g.nbrs node := hsym m hm node hpn'
                    apply hnoc m hmnb
                    rw [hmc', hcc]
                  · rw [getD_set_ne hpn]
                    exact hpp' m hm p hp c' hmc'
            have hfuel' : g.size - (node + 1) < fuel := by omega
            obtain ⟨iht, ihf⟩ := ih (node + 1) colors₁ hinv₁ hfuel'
            have hextlink : ∀ out', Extends colors' out' → out'.getD node 0 = c →
                Extends colors₁ out' := by
              intro out' hext heq m c' hm
              rw [hcolors₁] at hm
              by_cases hmn : m = node
              · rw [hmn, getD_set_self (by omega)] at hm
                have hcc : c = c' := by simpa using hm
                rw [hmn, heq]
                exact hcc
              · rw [getD_set_ne hmn] at hm
                exact hext m c' hm
            have hextback : ∀ out', Extends colors₁ out' → Extends colors' out' := by
              intro out' hext m c' hm
              have hmn : m ≠ node := by
                intro h
                rw [h, hnodeNone] at hm
                cases hm
              apply hext m c'
              rw [hcolors₁, getD_set_ne hmn]
              exact hm
            rcases hres : nsearch g k fuel (node + 1) colors₁ with ⟨b, cres⟩
            rw [hres] at iht ihf
            cases b with
            | true =>
              have hstep : nloop g (nsearch g k fuel (node + 1)) node (c :: rest) colors'
                  = (true, cres) := by
                simp only [nloop]
                rw [if_neg (by simp [hcf'])]
                rw [← hcolors₁, hres]
              obtain ⟨out, h1, h2, h3, h4⟩ := iht rfl
              have houtnode : out.getD node 0 = c := by
                apply h3 node c
                rw [hcolors₁]
                exact getD_set_self (by omega)
              have houtlen : out.length = g.size := h2.1
              rw [hstep]
              constructor
              · intro _
                refine ⟨out, h1, h2, hextback out h3, ?_⟩
                intro out' hprop hext hmem
                have houtlen' : out'.length = g.size := hprop.1
                have hd : out.drop node = out.getD node 0 :: out.drop (node + 1) := by
                  rw [List.getD_eq_getElem?_getD,
                    List.getElem?_eq_getElem (by omega : node < out.length)]
                  exact List.drop_eq_getElem_cons _
                have hd' : out'.drop node = out'.getD node 0 :: out'.drop (node + 1) := by
                  rw [List.getD_eq_getElem?_getD,
                    List.getElem?_eq_getElem (by omega : node < out'.length)]
                  exact List.drop_eq_getElem_cons _
                rcases List.mem_cons.mp hmem with heq | hmem'
                · -- same head color: compare tails via the recursive minimality
                  rw [hd, hd', houtnode, heq]
                  right
                  exact ⟨rfl, h4 out' hprop (hextlink out' hext heq)⟩
                · -- strictly larger head color
                  rw [hd, hd', houtnode]
                  left
                  exact (List.pairwise_cons.mp hpw).1 _ hmem'
              · intro hfl
                simp at hfl
            | false =>
              have hcres : cres = colors₁ := (ihf rfl).1
              have hback : cres.set node none = colors' := by
                rw [hcres, hcolors₁, List.set_set, set_none_cancel hnodeNone]
              have hstep : nloop g (nsearch g k fuel (node + 1)) node (c :: rest) colors'
                  = nloop g (nsearch g k fuel (node + 1)) node rest colors' := by
                simp only [nloop]
                rw [if_neg (by simp [hcf'])]
                rw [← hcolors₁, hres, ← hback]
              have hcimp : ∀ out', Proper g k out' → Extends colors' out' →
                  out'.getD node 0 = c → False := by
                intro out' hprop hext heq
                exact (ihf rfl).2 out' hprop (hextlink out' hext heq)
              obtain ⟨htc, hfc⟩ := ihc colors' hpwrest hckrest
                ⟨hclen', hnle', hnone', hsome', hpp'⟩
              rw [hstep]
              constructor
              · intro htr
                obtain ⟨out, h1, h2, h3, h4⟩ := htc htr
                refine ⟨out, h1, h2, h3, ?_⟩
                intro out' hprop hext hmem
                rcases List.mem_cons.mp hmem with heq | hmem'
                · exact absurd heq (fun heq => hcimp out' hprop hext heq)
                · exact h4 out' hprop hext hmem'
              · intro hfl
                obtain ⟨h1, h2⟩ := hfc hfl
                refine ⟨h1, ?_⟩
                intro out' hprop hext hmem
                rcases List.mem_cons.mp hmem with heq | hmem'
                · exact hcimp out' hprop hext heq
                · exact h2 out' hprop hext hmem'
      have hstep : nsearch g k (fuel + 1) node colors
          = nloop g (nsearch g k fuel (node + 1)) node (List.range k) colors := by
        simp [nsearch, hterm]
      obtain ⟨ht, hf⟩ := loop (List.range k) colors (List.pairwise_lt_range k)
        (fun c hc => List.mem_range.mp hc) ⟨hclen, hnle, hnone, hsome, hpp⟩
      have hnodek : ∀ out', Proper g k out' → out'.getD node 0 ∈ List.range k := by
        intro out' hprop
        apply List.mem_range.mpr
        apply hprop.2.1
        have := hprop.1
        exact getD_mem (by omega : node < out'.length)
      constructor
      · intro htr
        rw [hstep] at htr ⊢
        obtain ⟨out, h1, h2, h3, h4⟩ := ht htr
        exact ⟨out, h1, h2, h3, fun out' hp he => h4 out' hp he (hnodek out' hp)⟩
      · intro hfl
        rw [hstep] at hfl ⊢
        obtain ⟨h1, h2⟩ := hf hfl
        exact ⟨h1, fun out' hp he => h2 out' hp he (hnodek out' hp)⟩

/-! ### Further list utilities for the heuristic search -/

theorem set_getD_cancel {α : Type} (l : List α) (i : Nat) (d : α) :
    l.set i (l.getD i d) = l := by
  by_cases hlen : i < l.length
  · apply List.ext_getElem?
    intro j
    by_cases hj : j = i
    · subst hj
      rw [List.getElem?_set_self hlen, List.getD_eq_getElem?_getD,
        List.getElem?_eq_getElem hlen]
      rfl
    · rw [List.getElem?_set_ne (Ne.symm hj)]
  · exact List.set_eq_of_length_le (Nat.le_of_not_lt hlen)

/-! ### Stable sort facts -/

/-- Inserting an element that is below the whole list keeps it in front:
insertion sort is stable and leaves a minimal first element first. -/
theorem insertionSort_cons_min {α : Type} (r : α → α → Prop) [DecidableRel r]
    (a : α) (l : List α) (h : ∀ b ∈ l, r a b) :
    (a :: l).insertionSort r = a :: l.insertionSort r := by
  show (l.insertionSort r).orderedInsert r a = _
  cases hl : l.insertionSort r with
  | nil => rfl
  | cons b t =>
    have hb : b ∈ l := by
      have : b ∈ l.insertionSort r := by rw [hl]; exact List.mem_cons_self _ _
      exact (List.mem_insertionSort r).mp this
    exact List.orderedInsert_of_le r t (h b hb)

theorem pairwise_rel_getLast {α : Type} {r : α → α → Prop} {l : List α}
    (hpw : List.Pairwise r l) (hne : l ≠ []) :
    ∀ a ∈ l, r a (l.getLast hne) ∨ a = l.getLast hne := by
  intro a ha
  obtain ⟨i, hi, hia⟩ := List.mem_iff_getElem.mp ha
  have hlast := List.getLast_eq_getElem l hne
  by_cases hil : i = l.length - 1
  · right
    subst hil
    rw [hlast]
    exact hia.symm
  · left
    have hrel := List.pairwise_iff_getElem.mp hpw i (l.length - 1) hi (by omega) (by omega)
    rw [hlast, ← hia]
    exact hrel

/-! ### Forward checking: exact characterization -/

theorem backtrack_nil (domains : List (Finset Nat)) : backtrack domains [] = domains := rfl

theorem backtrack_cons (domains : List (Finset Nat)) (pc : Nat × Nat) (rest : List (Nat × Nat)) :
    backtrack domains (pc :: rest)
      = backtrack (domains.set pc.1 (insert pc.2 (domains.getD pc.1 ∅))) rest := rfl

theorem backtrack_length (rem : List (Nat × Nat)) :
    ∀ domains : List (Finset Nat), (backtrack domains rem).length = domains.length := by
  induction rem with
  | nil => intro domains; rfl
  | cons pc rest ih =>
    intro domains
    rw [backtrack_cons, ih]
    simp

theorem fcLoop_cons (colors : List (Option Nat)) (c p : Nat) (rest : List Nat)
    (domains : List (Finset Nat)) (rem : List (Nat × Nat)) :
    fcLoop colors c (p :: rest) domains rem =
      if (colors.getD p none).isNone ∧ c ∈ domains.getD p ∅ then
        (if (domains.set p ((domains.getD p ∅).erase c)).getD p ∅ = ∅ then
          (false, backtrack (domains.set p ((domains.getD p ∅).erase c)) ((p, c) :: rem), [])
        else fcLoop colors c rest (domains.set p ((domains.getD p ∅).erase c)) ((p, c) :: rem))
      else fcLoop colors c rest domains rem := rfl

/-- Undoing the removal just recorded for `p` gives back the original
domain vector. -/
theorem backtrack_step_cancel {c p : Nat}
    {domains : List (Finset Nat)} (rem : List (Nat × Nat))
    (hmem : c ∈ domains.getD p ∅) :
    backtrack (domains.set p ((domains.getD p ∅).erase c)) ((p, c) :: rem)
      = backtrack domains rem := by
  rw [backtrack_cons]
  have hp : p < domains.length := by
    by_contra hlen
    rw [getD_of_length_le (Nat.le_of_not_lt hlen)] at hmem
    exact absurd hmem (Finset.not_mem_empty c)
  have h1 : (domains.set p ((domains.getD p ∅).erase c)).getD p ∅
      = (domains.getD p ∅).erase c := getD_set_self (by simpa using hp)
  rw [h1, Finset.insert_erase hmem, List.set_set, set_getD_cancel]

theorem fcLoop_false_restore (colors : List (Option Nat)) (c : Nat) :
    ∀ (ps : List Nat) (domains : List (Finset Nat)) (rem : List (Nat × Nat)),
      (fcLoop colors c ps domains rem).1 = false →
      (fcLoop colors c ps domains rem).2.1 = backtrack domains rem ∧
        (fcLoop colors c ps domains rem).2.2 = [] := by
  intro ps
  induction ps with
  | nil => intro domains rem h; simp [fcLoop] at h
  | cons p rest ih =>
    intro domains rem h
    rw [fcLoop_cons] at h ⊢
    by_cases h1 : (colors.getD p none).isNone ∧ c ∈ domains.getD p ∅
    · rw [if_pos h1] at h ⊢
      by_cases h2 : (domains.set p ((domains.getD p ∅).erase c)).getD p ∅ = ∅
      · rw [if_pos h2] at h ⊢
        exact ⟨backtrack_step_cancel rem h1.2, rfl⟩
      · rw [if_neg h2] at h ⊢
        obtain ⟨ha, hb⟩ := ih _ _ h
        refine ⟨?_, hb⟩
        rw [ha]
        exact backtrack_step_cancel rem h1.2
    · rw [if_neg h1] at h ⊢
      exact ih _ _ h

theorem fcLoop_true_restore (colors : List (Option Nat)) (c : Nat) :
    ∀ (ps : List Nat) (domains : List (Finset Nat)) (rem : List (Nat × Nat)),
      (fcLoop colors c ps domains rem).1 = true →
      backtrack (fcLoop colors c ps domains rem).2.1 (fcLoop colors c ps domains rem).2.2
        = backtrack domains rem := by
  intro ps
  induction ps with
  | nil => intro domains rem _; rfl
  | cons p rest ih =>
    intro domains rem h
    rw [fcLoop_cons] at h ⊢
    by_cases h1 : (colors.getD p none).isNone ∧ c ∈ domains.getD p ∅
    · rw [if_pos h1] at h ⊢
      by_cases h2 : (domains.set p ((domains.getD p ∅).erase c)).getD p ∅ = ∅
      · rw [if_pos h2] at h
        simp at h
      · rw [if_neg h2] at h ⊢
        rw [ih _ _ h, backtrack_step_cancel rem h1.2]
    · rw [if_neg h1] at h ⊢
      exact ih _ _ h

theorem fcLoop_length (colors : List (Option Nat)) (c : Nat) :
    ∀ (ps : List Nat) (domains : List (Finset Nat)) (rem : List (Nat × Nat)),
      (fcLoop colors c ps domains rem).2.1.length = domains.length := by
  intro ps
  induction ps with
  | nil => intro domains rem; rfl
  | cons p rest ih =>
    intro domains rem
    rw [fcLoop_cons]
    by_cases h1 : (colors.getD p none).isNone ∧ c ∈ domains.getD p ∅
    · rw [if_pos h1]
      by_cases h2 : (domains.set p ((domains.getD p ∅).erase c)).getD p ∅ = ∅
      · rw [if_pos h2]
        simp [backtrack_length]
      · rw [if_neg h2, ih]
        simp
    · rw [if_neg h1]
      exact ih _ _

theorem fcLoop_true_domains (colors : List (Option Nat)) (c : Nat) :
    ∀ (ps : List Nat) (domains : List (Finset Nat)) (rem : List (Nat × Nat)),
      (fcLoop colors c ps domains rem).1 = true →
      ∀ q, (fcLoop colors c ps domains rem).2.1.getD q ∅ =
        if q ∈ ps ∧ colors.getD q none = none then (domains.getD q ∅).erase c
        else domains.getD q ∅ := by
  intro ps
  induction ps with
  | nil =>
    intro domains rem _ q
    simp [fcLoop]
  | cons p rest ih =>
    intro domains rem h q
    rw [fcLoop_cons] at h ⊢
    by_cases h1 : (colors.getD p none).isNone ∧ c ∈ domains.getD p ∅
    · have hp : p < domains.length := by
        by_contra hlen
        rw [getD_of_length_le (Nat.le_of_not_lt hlen)] at h1
        exact absurd h1.2 (Finset.not_mem_empty c)
      have hpnone : colors.getD p none = none := Option.isNone_iff_eq_none.mp h1.1
      rw [if_pos h1] at h ⊢
      by_cases h2 : (domains.set p ((domains.getD p ∅).erase c)).getD p ∅ = ∅
      · rw [if_pos h2] at h
        simp at h
      · rw [if_neg h2] at h ⊢
        rw [ih _ _ h q]
        have hset : ∀ q', (domains.set p ((domains.getD p ∅).erase c)).getD q' ∅
            = if q' = p then (domains.getD p ∅).erase c else domains.getD q' ∅ := by
          intro q'
          by_cases hq' : q' = p
          · rw [hq', if_pos rfl]
            exact getD_set_self (by simpa using hp)
          · rw [if_neg hq', getD_set_ne hq']
        by_cases hqp : q = p
        · subst hqp
          rw [hset q, if_pos rfl]
          by_cases hqr : q ∈ rest
          · rw [if_pos ⟨hqr, hpnone⟩, if_pos ⟨List.mem_cons_self _ _, hpnone⟩,
              Finset.erase_idem]
          · rw [if_neg (by simp [hqr, hpnone] : ¬(q ∈ rest ∧ colors.getD q none = none)),
              if_pos ⟨List.mem_cons_self _ _, hpnone⟩]
        · rw [hset q, if_neg hqp]
          by_cases hqc : q ∈ rest ∧ colors.getD q none = none
          · rw [if_pos hqc, if_pos ⟨List.mem_cons_of_mem _ hqc.1, hqc.2⟩]
          · rw [if_neg hqc, if_neg ?_]
            intro hcon
            apply hqc
            refine ⟨?_, hcon.2⟩
            rcases List.mem_cons.mp hcon.1 with h' | h'
            · exact absurd h' hqp
            · exact h'
    · rw [if_neg h1] at h ⊢
      rw [ih _ _ h q]
      by_cases hqp : q = p
      · subst hqp
        have : ¬(colors.getD q none).isNone ∨ c ∉ domains.getD q ∅ := by
          by_contra hcon
          push_neg at hcon
          exact h1 ⟨hcon.1, hcon.2⟩
        rcases this with hcol | hnd
        · have hqnc : colors.getD q none ≠ none := by
            intro h'
            apply hcol
            rw [h']
            rfl
          rw [if_neg (fun hcon => hqnc (And.right hcon)),
            if_neg (fun hcon => hqnc (And.right hcon))]
        · have herase : (domains.getD q ∅).erase c = domains.getD q ∅ :=
            Finset.erase_eq_of_not_mem hnd
          by_cases hqc : colors.getD q none = none
          · by_cases hqr : q ∈ rest
            · rw [if_pos ⟨hqr, hqc⟩, if_pos ⟨List.mem_cons_self _ _, hqc⟩]
            · rw [if_neg (by simp [hqr, hqc] : ¬(q ∈ rest ∧ colors.getD q none = none)),
                if_pos ⟨List.mem_cons_self _ _, hqc⟩, herase]
          · rw [if_neg (fun hcon => hqc (And.right hcon)),
              if_neg (fun hcon => hqc (And.right hcon))]
      · by_cases hqc : q ∈ rest ∧ colors.getD q none = none
        · rw [if_pos hqc, if_pos ⟨List.mem_cons_of_mem _ hqc.1, hqc.2⟩]
        · rw [if_neg hqc, if_neg ?_]
          intro hcon
          apply hqc
          refine ⟨?_, hcon.2⟩
          rcases List.mem_cons.mp hcon.1 with h' | h'
          · exact absurd h' hqp
          · exact h'

theorem fcLoop_false_cause (colors : List (Option Nat)) (c : Nat) :
    ∀ (ps : List Nat) (domains : List (Finset Nat)) (rem : List (Nat × Nat)),
      (fcLoop colors c ps domains rem).1 = false →
      ∃ p ∈ ps, colors.getD p none = none ∧ c ∈ domains.getD p ∅ ∧
        (domains.getD p ∅).erase c = ∅ := by
  intro ps
  induction ps with
  | nil => intro domains rem h; simp [fcLoop] at h
  | cons p rest ih =>
    intro domains rem h
    rw [fcLoop_cons] at h
    by_cases h1 : (colors.getD p none).isNone ∧ c ∈ domains.getD p ∅
    · have hp : p < domains.length := by
        by_contra hlen
        rw [getD_of_length_le (Nat.le_of_not_lt hlen)] at h1
        exact absurd h1.2 (Finset.not_mem_empty c)
      rw [if_pos h1] at h
      by_cases h2 : (domains.set p ((domains.getD p ∅).erase c)).getD p ∅ = ∅
      · rw [getD_set_self (by simpa using hp)] at h2
        exact ⟨p, List.mem_cons_self _ _, Option.isNone_iff_eq_none.mp h1.1, h1.2, h2⟩
      · rw [if_neg h2] at h
        obtain ⟨p', hp', hc1, hc2, hc3⟩ := ih _ _ h
        have hpp' : p' ≠ p := by
          intro he
          rw [he, getD_set_self (by simpa using hp)] at hc2
          exact absurd hc2 (Finset.not_mem_erase c _)
        rw [getD_set_ne hpp'] at hc2 hc3
        exact ⟨p', List.mem_cons_of_mem _ hp', hc1, hc2, hc3⟩
    · rw [if_neg h1] at h
      obtain ⟨p', hp', hc1, hc2, hc3⟩ := ih _ _ h
      exact ⟨p', List.mem_cons_of_mem _ hp', hc1, hc2, hc3⟩

theorem fcLoop_true_rem (colors : List (Option Nat)) (c : Nat) :
    ∀ (ps : List Nat) (domains : List (Finset Nat)) (rem : List (Nat × Nat)),
      (fcLoop colors c ps domains rem).1 = true →
      ∃ rem' : List (Nat × Nat),
        (fcLoop colors c ps domains rem).2.2 = rem' ++ rem ∧
        (∀ pc ∈ rem', pc.2 = c ∧ pc.1 ∈ ps ∧ colors.getD pc.1 none = none ∧
          c ∈ domains.getD pc.1 ∅) ∧
        (∀ q ∈ ps, colors.getD q none = none → c ∈ domains.getD q ∅ →
          (q, c) ∈ rem' ++ rem) := by
  intro ps
  induction ps with
  | nil =>
    intro domains rem _
    exact ⟨[], rfl, by simp, by simp⟩
  | cons p rest ih =>
    intro domains rem h
    rw [fcLoop_cons] at h ⊢
    by_cases h1 : (colors.getD p none).isNone ∧ c ∈ domains.getD p ∅
    · have hp : p < domains.length := by
        by_contra hlen
        rw [getD_of_length_le (Nat.le_of_not_lt hlen)] at h1
        exact absurd h1.2 (Finset.not_mem_empty c)
      have hpnone : colors.getD p none = none := Option.isNone_iff_eq_none.mp h1.1
      rw [if_pos h1] at h ⊢
      by_cases h2 : (domains.set p ((domains.getD p ∅).erase c)).getD p ∅ = ∅
      · rw [if_pos h2] at h
        simp at h
      · rw [if_neg h2] at h ⊢
        obtain ⟨rem'', hr1, hr2, hr3⟩ := ih _ _ h
        refine ⟨rem'' ++ [(p, c)], by rw [hr1]; simp, ?_, ?_⟩
        · intro pc hpc
          rcases List.mem_append.mp hpc with hpc' | hpc'
          · obtain ⟨ha, hb, hc', hd⟩ := hr2 pc hpc'
            have hpcp : pc.1 ≠ p := by
              intro he
              rw [he, getD_set_self (by simpa using hp)] at hd
              exact absurd hd (Finset.not_mem_erase c _)
            rw [getD_set_ne hpcp] at hd
            exact ⟨ha, List.mem_cons_of_mem _ hb, hc', hd⟩
          · have : pc = (p, c) := by simpa using hpc'
            rw [this]
            exact ⟨rfl, List.mem_cons_self _ _, hpnone, h1.2⟩
        · intro q hq hqc hqd
          by_cases hqp : q = p
          · subst hqp
            simp
          · rcases List.mem_cons.mp hq with h' | h'
            · exact absurd h' hqp
            · have hqd' : c ∈ (domains.set p ((domains.getD p ∅).erase c)).getD q ∅ := by
                rw [getD_set_ne hqp]
                exact hqd
              have := hr3 q h' hqc hqd'
              rcases List.mem_append.mp this with h'' | h''
              · apply List.mem_append.mpr
                left
                apply List.mem_append.mpr
                left
                exact h''
              · rcases List.mem_cons.mp h'' with hmc3 | hmc3
                · apply List.mem_append.mpr
                  left
                  apply List.mem_append.mpr
                  right
                  simp [hmc3]
                · apply List.mem_append.mpr
                  right
                  exact hmc3
    · rw [if_neg h1] at h ⊢
      obtain ⟨rem'', hr1, hr2, hr3⟩ := ih _ _ h
      refine ⟨rem'', hr1, ?_, ?_⟩
      · intro pc hpc
        obtain ⟨ha, hb, hc', hd⟩ := hr2 pc hpc
        exact ⟨ha, List.mem_cons_of_mem _ hb, hc', hd⟩
      · intro q hq hqc hqd
        rcases List.mem_cons.mp hq with h' | h'
        · exfalso
          apply h1
          rw [← h']
          refine ⟨?_, hqd⟩
          rw [hqc]
          rfl
        · exact hr3 q h' hqc hqd

/-! ### State components of the heuristic search -/

/-- The set of currently uncolored nodes. -/
def uncolored (colors : List (Option Nat)) : Finset Nat :=
  (Finset.range colors.length).filter (fun m => colors.getD m none = none)

/-- The set of colors below `k` currently held by some node. -/
def usedSet (k : Nat) (colors : List (Option Nat)) : Finset Nat :=
  (Finset.range k).filter (fun c => some c ∈ colors)

/-- The colors held by the colored neighbors of `m`. -/
def nbrColors (g : VecVecGraph) (colors : List (Option Nat)) (m : Nat) : Finset Nat :=
  ((g.nbrs m).filterMap (fun p => colors.getD p none)).toFinset

theorem mem_uncolored {colors : List (Option Nat)} {m : Nat} :
    m ∈ uncolored colors ↔ m < colors.length ∧ colors.getD m none = none := by
  simp [uncolored]

theorem mem_usedSet {k : Nat} {colors : List (Option Nat)} {c : Nat} :
    c ∈ usedSet k colors ↔ c < k ∧ some c ∈ colors := by
  simp [usedSet]

theorem mem_nbrColors {g : VecVecGraph} {colors : List (Option Nat)} {m x : Nat} :
    x ∈ nbrColors g colors m ↔ ∃ p ∈ g.nbrs m, colors.getD p none = some x := by
  simp [nbrColors, List.mem_filterMap]

theorem mem_set_some_iff {colors : List (Option Nat)} {node c x : Nat}
    (hnode : colors.getD node none = none) (hlt : node < colors.length) :
    some x ∈ colors.set node (some c) ↔ x = c ∨ some x ∈ colors := by
  constructor
  · intro hmem
    obtain ⟨i, hi⟩ := List.mem_iff_getElem?.mp hmem
    by_cases hin : i = node
    · subst hin
      rw [List.getElem?_set_self hlt] at hi
      left
      simpa using hi.symm
    · right
      rw [List.getElem?_set_ne (Ne.symm hin)] at hi
      exact List.mem_iff_getElem?.mpr ⟨i, hi⟩
  · intro hmem
    rcases hmem with heq | hmem
    · subst heq
      exact List.mem_iff_getElem?.mpr ⟨node, by rw [List.getElem?_set_self hlt]⟩
    · obtain ⟨i, hi⟩ := List.mem_iff_getElem?.mp hmem
      have hin : i ≠ node := by
        intro he
        subst he
        rw [List.getD_eq_getElem?_getD, hi] at hnode
        cases hnode
      exact List.mem_iff_getElem?.mpr ⟨i, by rw [List.getElem?_set_ne (Ne.symm hin)]; exact hi⟩

theorem uncolored_set_some {colors : List (Option Nat)} {node c : Nat} :
    uncolored (colors.set node (some c)) = (uncolored colors).erase node := by
  ext m
  rw [mem_uncolored, Finset.mem_erase, mem_uncolored]
  by_cases hmn : m = node
  · subst hmn
    simp only [List.length_set]
    constructor
    · intro ⟨hlt, hgd⟩
      rw [getD_set_self hlt] at hgd
      cases hgd
    · intro ⟨hne, _⟩
      exact absurd rfl hne
  · rw [getD_set_ne hmn]
    simp [List.length_set, hmn]

theorem usedSet_set_some {k : Nat} {colors : List (Option Nat)} {node c : Nat}
    (hnode : colors.getD node none = none) (hlt : node < colors.length) (hc : c < k) :
    usedSet k (colors.set node (some c)) = insert c (usedSet k colors) := by
  ext x
  rw [mem_usedSet, Finset.mem_insert, mem_usedSet, mem_set_some_iff hnode hlt]
  constructor
  · intro ⟨hx, hmem⟩
    rcases hmem with heq | hmem
    · exact Or.inl heq
    · exact Or.inr ⟨hx, hmem⟩
  · intro h
    rcases h with heq | ⟨hx, hmem⟩
    · exact ⟨heq ▸ hc, Or.inl heq⟩
    · exact ⟨hx, Or.inr hmem⟩

theorem nbrColors_set_some {g : VecVecGraph} {colors : List (Option Nat)} {node c : Nat}
    (hnode : colors.getD node none = none) (hlt : node < colors.length) (m : Nat) :
    nbrColors g (colors.set node (some c)) m
      = if node ∈ g.nbrs m then insert c (nbrColors g colors m)
        else nbrColors g colors m := by
  have hget : ∀ p, (colors.set node (some c)).getD p none
      = if p = node then some c else colors.getD p none := by
    intro p
    by_cases hpn : p = node
    · rw [hpn, if_pos rfl]
      exact getD_set_self hlt
    · rw [if_neg hpn, getD_set_ne hpn]
  ext x
  rw [mem_nbrColors]
  by_cases hn : node ∈ g.nbrs m
  · rw [if_pos hn, Finset.mem_insert, mem_nbrColors]
    constructor
    · intro ⟨p, hp, hgd⟩
      rw [hget p] at hgd
      by_cases hpn : p = node
      · rw [if_pos hpn] at hgd
        left
        simpa using hgd.symm
      · rw [if_neg hpn] at hgd
        exact Or.inr ⟨p, hp, hgd⟩
    · intro h
      rcases h with heq | ⟨p, hp, hgd⟩
      · exact ⟨node, hn, by rw [hget node, if_pos rfl, heq]⟩
      · have hpn : p ≠ node := by
          intro he
          rw [he, hnode] at hgd
          cases hgd
        exact ⟨p, hp, by rw [hget p, if_neg hpn]; exact hgd⟩
  · rw [if_neg hn, mem_nbrColors]
    constructor
    · intro ⟨p, hp, hgd⟩
      have hpn : p ≠ node := fun he => hn (he ▸ hp)
      rw [hget p, if_neg hpn] at hgd
      exact ⟨p, hp, hgd⟩
    · intro ⟨p, hp, hgd⟩
      have hpn : p ≠ node := fun he => hn (he ▸ hp)
      exact ⟨p, hp, by rw [hget p, if_neg hpn]; exact hgd⟩

theorem sdiff_insert_eq_erase_sdiff {k : Nat} (S : Finset Nat) (c : Nat) :
    Finset.range k \ insert c S = (Finset.range k \ S).erase c := by
  ext x
  simp only [Finset.mem_sdiff, Finset.mem_insert, Finset.mem_erase]
  tauto

theorem mem_sortedList {k : Nat} {s : Finset Nat} {c : Nat} :
    c ∈ sortedList k s ↔ c < k ∧ c ∈ s := by
  simp [sortedList]

/-! ### Color swapping (symmetry of globally unused colors) -/

def swapFn (a b x : Nat) : Nat := if x = a then b else if x = b then a else x

def swapColors (a b : Nat) (cs : List Nat) : List Nat := cs.map (swapFn a b)

theorem swapFn_left (a b : Nat) : swapFn a b a = b := by simp [swapFn]

theorem swapFn_of_ne {a b x : Nat} (hx : x ≠ a) (hy : x ≠ b) : swapFn a b x = x := by
  simp [swapFn, hx, hy]

theorem swapFn_lt {a b x k : Nat} (ha : a < k) (hb : b < k) (hx : x < k) :
    swapFn a b x < k := by
  unfold swapFn
  split_ifs <;> omega

theorem swapFn_inj {a b x y : Nat} (h : swapFn a b x = swapFn a b y) : x = y := by
  unfold swapFn at h
  split_ifs at h <;> omega

theorem length_swapColors (a b : Nat) (cs : List Nat) :
    (swapColors a b cs).length = cs.length := by
  simp [swapColors]

theorem getD_swapColors {a b m : Nat} {cs : List Nat} (h : m < cs.length) :
    (swapColors a b cs).getD m 0 = swapFn a b (cs.getD m 0) := by
  simp [swapColors, List.getD_eq_getElem?_getD, List.getElem?_map,
    List.getElem?_eq_getElem h]

theorem proper_swapColors {g : VecVecGraph} {k a b : Nat} {cs : List Nat}
    (hval : ∀ m < g.size, ∀ p ∈ g.nbrs m, p < g.size)
    (hprop : Proper g k cs) (ha : a < k) (hb : b < k) :
    Proper g k (swapColors a b cs) := by
  obtain ⟨hlen, hmem, hadj⟩ := hprop
  refine ⟨by rw [length_swapColors, hlen], ?_, ?_⟩
  · intro c hc
    obtain ⟨y, hy, hxy⟩ := List.mem_map.mp hc
    rw [← hxy]
    exact swapFn_lt ha hb (hmem y hy)
  · intro m hm p hp
    rw [getD_swapColors (by omega : m < cs.length),
      getD_swapColors (by rw [hlen]; exact hval m hm p hp)]
    intro heq
    exact hadj m hm p hp (swapFn_inj heq)

/-! ### Pool sorting facts -/

theorem pickSort_perm (domains : List (Finset Nat)) (pool : List Nat) :
    List.Perm (pickSort domains pool) pool :=
  List.perm_insertionSort _ pool

theorem pickSort_sorted (domains : List (Finset Nat)) (pool : List Nat) :
    List.Pairwise (fun a b => (domains.getD b ∅).card ≤ (domains.getD a ∅).card)
      (pickSort domains pool) := by
  haveI : IsTotal Nat (fun a b => (domains.getD b ∅).card ≤ (domains.getD a ∅).card) :=
    ⟨fun a b => (le_total _ _).symm⟩
  haveI : IsTrans Nat (fun a b => (domains.getD b ∅).card ≤ (domains.getD a ∅).card) :=
    ⟨fun _ _ _ h1 h2 => le_trans h2 h1⟩
  exact List.sorted_insertionSort _ pool

theorem pickSort_cons_zero (domains : List (Finset Nat)) (rest : List Nat)
    (h : ∀ b ∈ rest, (domains.getD b ∅).card ≤ (domains.getD 0 ∅).card) :
    pickSort domains (0 :: rest) = 0 :: pickSort domains rest :=
  insertionSort_cons_min _ 0 rest h

/-- A fully colored, conflict-free assignment decodes to a proper coloring. -/
theorem proper_decode {g : VecVecGraph} {k : Nat} {colors : List (Option Nat)}
    (hclen : colors.length = g.size)
    (hcval : ∀ m c, colors.getD m none = some c → c < k)
    (hpp : ∀ m, m < g.size → ∀ p ∈ g.nbrs m, ∀ c, colors.getD m none = some c →
      colors.getD p none ≠ some c)
    (hval : ∀ m < g.size, ∀ p ∈ g.nbrs m, p < g.size)
    (hall : ∀ m, m < g.size → colors.getD m none ≠ none) :
    ∃ out : List Nat, colors = out.map some ∧ Proper g k out := by
  have hallmem : ∀ o ∈ colors, o ≠ none := by
    intro o ho hno
    subst hno
    obtain ⟨i, hi, hget⟩ := List.mem_iff_getElem.mp ho
    apply hall i (by omega)
    rw [List.getD_eq_getElem?_getD, List.getElem?_eq_getElem hi, hget]
    rfl
  obtain ⟨out, hout⟩ := exists_map_some hallmem
  have houtlen : out.length = g.size := by
    have := congrArg List.length hout
    simpa [hclen] using this.symm
  have hext : ∀ m c, colors.getD m none = some c → out.getD m 0 = c := by
    intro m c hm
    have hmlt : m < colors.length := getD_some_lt_length hm
    rw [hout] at hm
    rw [getD_map_some (by omega : m < out.length)] at hm
    exact Option.some_inj.mp hm
  have hcolgd : ∀ m, m < g.size → colors.getD m none = some (out.getD m 0) := by
    intro m hm
    cases hc : colors.getD m none with
    | none => exact absurd hc (hall m hm)
    | some c => rw [hext m c hc]
  refine ⟨out, hout, houtlen, ?_, ?_⟩
  · intro c hc
    obtain ⟨i, hi, hget⟩ := List.mem_iff_getElem.mp hc
    have hgd : colors.getD i none = some c := by
      rw [hout, getD_map_some (by omega : i < out.length)]
      rw [List.getD_eq_getElem?_getD, List.getElem?_eq_getElem hi, hget]
      rfl
    exact hcval i c hgd
  · intro m hm p hp heq
    apply hpp m hm p hp (out.getD m 0) (hcolgd m hm)
    rw [hcolgd p (hval m hm p hp), ← heq]

/-! ### Candidate list facts -/

theorem mem_order_colors_of_mem_diff {g : VecVecGraph} {k : Nat} {colors : List (Option Nat)}
    {domains : List (Finset Nat)} {node : Nat} {unused : Finset Nat} {c : Nat}
    (hc : c ∈ domains.getD node ∅) (hck : c < k) (hcu : c ∉ unused) :
    c ∈ order_colors g k colors domains node unused := by
  unfold order_colors
  rw [List.mem_insertionSort]
  by_cases h : unused = ∅
  · rw [dif_pos h]
    exact mem_sortedList.mpr ⟨hck, hc⟩
  · rw [dif_neg h]
    apply List.mem_append_left
    exact mem_sortedList.mpr ⟨hck, Finset.mem_sdiff.mpr ⟨hc, hcu⟩⟩

theorem mem_order_colors_min {g : VecVecGraph} {k : Nat} {colors : List (Option Nat)}
    {domains : List (Finset Nat)} {node : Nat} {unused : Finset Nat}
    (h : ¬ unused = ∅) :
    unused.min' (Finset.nonempty_iff_ne_empty.mpr h)
      ∈ order_colors g k colors domains node unused := by
  unfold order_colors
  rw [List.mem_insertionSort, dif_neg h]
  apply List.mem_append_right
  exact List.mem_singleton.mpr rfl

theorem order_colors_lt {g : VecVecGraph} {k : Nat} {colors : List (Option Nat)}
    {domains : List (Finset Nat)} {node : Nat} {unused : Finset Nat}
    (hu : unused ⊆ Finset.range k) :
    ∀ c ∈ order_colors g k colors domains node unused, c < k := by
  intro c hc
  unfold order_colors at hc
  rw [List.mem_insertionSort] at hc
  by_cases h : unused = ∅
  · rw [dif_pos h] at hc
    exact (mem_sortedList.mp hc).1
  · rw [dif_neg h] at hc
    rcases List.mem_append.mp hc with hc' | hc'
    · exact (mem_sortedList.mp hc').1
    · have hcm : c = unused.min' (Finset.nonempty_iff_ne_empty.mpr h) :=
        List.mem_singleton.mp hc'
      have : c ∈ unused := hcm ▸ Finset.min'_mem _ _
      exact Finset.mem_range.mp (hu this)

/-! ### The heuristic search invariant -/

/-- The invariant at entry of `HeuristicColoring::search`.  The last field
distinguishes the terminal call (empty pool, everything colored) from a
branching call: `node` is uncolored and, except for node 0 — which the top
call of `color` leaves in the pool while branching on it — the pool is
exactly the uncolored nodes plus the always-pooled node 0, with 0 kept at
the front (it has a full domain, the maximum, and the descending stable
sort keeps it there). -/
structure HInv (g : VecVecGraph) (k node : Nat) (s : HState) : Prop where
  clen : s.colors.length = g.size
  dlen : s.domains.length = g.size
  cval : ∀ m c, s.colors.getD m none = some c → c < k
  dex : ∀ m, m < g.size → s.colors.getD m none = none →
    s.domains.getD m ∅ = Finset.range k \ nbrColors g s.colors m
  d0 : 0 < g.size → s.domains.getD 0 ∅ = Finset.range k
  dsub : ∀ m, s.domains.getD m ∅ ⊆ Finset.range k
  uu : s.unused = Finset.range k \ usedSet k s.colors
  pp : ∀ m, m < g.size → ∀ p ∈ g.nbrs m, ∀ c, s.colors.getD m none = some c →
    s.colors.getD p none ≠ some c
  poolsub : ∀ m ∈ s.pool, m < g.size
  poolnd : s.pool.Nodup
  tcase : (s.pool = [] ∧ ∀ m, m < g.size → s.colors.getD m none ≠ none)
    ∨ (node < g.size ∧ s.colors.getD node none = none
        ∧ s.pool.head? = some 0
        ∧ s.pool.toFinset ∪ {node} = uncolored s.colors ∪ {0}
        ∧ (node ∈ s.pool → node = 0)
        ∧ (node ≠ 0 → s.colors.getD 0 none ≠ none))

/-- Master lemma for the heuristic search: with enough fuel, a successful
search leaves a complete proper coloring, and a failed search restores the
state exactly (colors, domains, unused set; the pool up to order with node
0 still first) and proves that no proper coloring extends the entry
assignment. -/
theorem hsearch_spec (g : VecVecGraph) (hg : g.WF) (k : Nat) :
    ∀ fuel node s, HInv g k node s → (uncolored s.colors).card < fuel →
      ((hsearch g k fuel node s).1 = true →
        ∃ out : List Nat, (hsearch g k fuel node s).2.colors = out.map some ∧ Proper g k out)
      ∧ ((hsearch g k fuel node s).1 = false →
        (hsearch g k fuel node s).2.colors = s.colors
        ∧ (hsearch g k fuel node s).2.domains = s.domains
        ∧ (hsearch g k fuel node s).2.unused = s.unused
        ∧ (hsearch g k fuel node s).2.pool.toFinset = s.pool.toFinset
        ∧ (hsearch g k fuel node s).2.pool.Nodup
        ∧ (hsearch g k fuel node s).2.pool.head? = s.pool.head?
        ∧ ∀ cs, Proper g k cs → Extends s.colors cs → False) := by
  obtain ⟨hlen, hval, hsym, hirr⟩ := hg
  intro fuel
  induction fuel with
  | zero => intro node s _ hfuel; omega
  | succ fuel ih =>
    intro node s hinv hfuel
    by_cases hpool : s.pool = []
    · have hstep : hsearch g k (fuel + 1) node s = (true, s) := by
        simp [hsearch, hpool]
      rw [hstep]
      rcases hinv.tcase with ⟨_, hall⟩ | ⟨_, _, hhead, _⟩
      · refine ⟨fun _ => ?_, fun h => by simp at h⟩
        exact proper_decode hinv.clen hinv.cval hinv.pp hval hall
      · rw [hpool] at hhead
        cases hhead
    · rcases hinv.tcase with ⟨hpe, _⟩ | hB
      · exact absurd hpe hpool
      obtain ⟨hnlt, hnodeNone, hhead, hpoolEq, hnodeInPool, h0col⟩ := hB
      have loop : ∀ cs s', HInv g k node s' → s'.pool ≠ [] →
          (uncolored s'.colors).card < fuel + 1 →
          (∀ c ∈ cs, c < k) →
          ((hloop g (hsearch g k fuel) node cs s').1 = true →
            ∃ out : List Nat,
              (hloop g (hsearch g k fuel) node cs s').2.colors = out.map some ∧
                Proper g k out)
          ∧ ((hloop g (hsearch g k fuel) node cs s').1 = false →
            (hloop g (hsearch g k fuel) node cs s').2.colors = s'.colors
            ∧ (hloop g (hsearch g k fuel) node cs s').2.domains = s'.domains
            ∧ (hloop g (hsearch g k fuel) node cs s').2.unused = s'.unused
            ∧ (hloop g (hsearch g k fuel) node cs s').2.pool.toFinset = s'.pool.toFinset
            ∧ (hloop g (hsearch g k fuel) node cs s').2.pool.Nodup
            ∧ (hloop g (hsearch g k fuel) node cs s').2.pool.head? = s'.pool.head?
            ∧ ∀ cs', Proper g k cs' → Extends s'.colors cs' →
                cs'.getD node 0 ∈ cs → False) := by
        intro cs
        induction cs with
        | nil =>
          intro s' hinv' _ _ _
          refine ⟨fun h => by simp [hloop] at h, fun _ => ?_⟩
          exact ⟨rfl, rfl, rfl, rfl, hinv'.poolnd, rfl,
            fun cs' _ _ hmem => absurd hmem (List.not_mem_nil _)⟩
        | cons c rest ihc =>
          intro s' hinv' hpool' hcard' hck
          have hckrest : ∀ c' ∈ rest, c' < k :=
            fun c' hc' => hck c' (List.mem_cons_of_mem _ hc')
          rcases hinv'.tcase with ⟨hpe, _⟩ | hB'
          · exact absurd hpe hpool'
          obtain ⟨_, hnodeNone', hhead', hpoolEq', hnodeInPool', h0col'⟩ := hB'
          have hnodeUnc : node ∈ uncolored s'.colors :=
            mem_uncolored.mpr ⟨by rw [hinv'.clen]; exact hnlt, hnodeNone'⟩
          have hcardpos : 0 < (uncolored s'.colors).card :=
            Finset.card_pos.mpr ⟨node, hnodeUnc⟩
          by_cases hconf : (g.nbrs node).any (fun p => s'.colors.getD p none == some c) = true
          · -- a neighbor already holds c: skip this color
            have hstep : hloop g (hsearch g k fuel) node (c :: rest) s'
                = hloop g (hsearch g k fuel) node rest s' := by
              simp only [hloop]
              rw [if_pos hconf]
            have hex : ∃ p ∈ g.nbrs node, s'.colors.getD p none = some c := by
              simpa using hconf
            obtain ⟨p, hp, hpcol⟩ := hex
            have hcimp : ∀ cs', Proper g k cs' → Extends s'.colors cs' →
                cs'.getD node 0 = c → False := by
              intro cs' hprop hext heq
              have hv : cs'.getD p 0 = c := hext p c hpcol
              exact hprop.2.2 node hnlt p hp (by rw [heq, hv])
            obtain ⟨htc, hfc⟩ := ihc s' hinv' hpool' hcard' hckrest
            rw [hstep]
            refine ⟨htc, ?_⟩
            intro hfl
            obtain ⟨h1, h2, h3, h4, h5, h6, h7⟩ := hfc hfl
            refine ⟨h1, h2, h3, h4, h5, h6, ?_⟩
            intro cs' hprop hext hmem
            rcases List.mem_cons.mp hmem with heq | hmem'
            · exact hcimp cs' hprop hext heq
            · exact h7 cs' hprop hext hmem'
          · have hconf' : (g.nbrs node).any
                (fun p => s'.colors.getD p none == some c) = false := by
              simpa using hconf
            have hnoc : ∀ p ∈ g.nbrs node, s'.colors.getD p none ≠ some c := by
              simpa using hconf'
            rcases hfc : forward_check g s'.colors s'.domains node c with ⟨av, domains₁, rem⟩
            have hfcL : fcLoop s'.colors c (g.nbrs node) s'.domains [] = (av, domains₁, rem) :=
              hfc
            cases av with
            | false =>
              -- forward check failed: the state is already restored
              have hd1 := fcLoop_false_restore s'.colors c (g.nbrs node) s'.domains []
                (by rw [hfcL])
              rw [hfcL] at hd1
              have hd1' : domains₁ = s'.domains := by
                have := hd1.1
                simpa [backtrack_nil] using this
              obtain ⟨p, hp, hpnone, hpc, hperase⟩ := fcLoop_false_cause s'.colors c
                (g.nbrs node) s'.domains [] (by rw [hfcL])
              have hstep : hloop g (hsearch g k fuel) node (c :: rest) s'
                  = hloop g (hsearch g k fuel) node rest s' := by
                simp only [hloop]
                rw [if_neg hconf]
                rw [hfc, hd1']
              have hcimp : ∀ cs', Proper g k cs' → Extends s'.colors cs' →
                  cs'.getD node 0 = c → False := by
                intro cs' hprop hext heq
                have hplt : p < g.size := hval node hnlt p hp
                have hcslen : cs'.length = g.size := hprop.1
                have hcsplt : cs'.getD p 0 < k :=
                  hprop.2.1 _ (getD_mem (by omega : p < cs'.length))
                have hnmem : cs'.getD p 0 ∉ nbrColors g s'.colors p := by
                  intro hmem
                  obtain ⟨q, hq, hqc⟩ := mem_nbrColors.mp hmem
                  exact hprop.2.2 p hplt q hq (hext q _ hqc).symm
                have hin : cs'.getD p 0 ∈ s'.domains.getD p ∅ := by
                  rw [hinv'.dex p hplt hpnone]
                  exact Finset.mem_sdiff.mpr ⟨Finset.mem_range.mpr hcsplt, hnmem⟩
                have hne : cs'.getD p 0 ≠ c := by
                  intro he
                  exact hprop.2.2 node hnlt p hp (by rw [heq, he])
                have hmem2 : cs'.getD p 0 ∈ (s'.domains.getD p ∅).erase c :=
                  Finset.mem_erase.mpr ⟨hne, hin⟩
                rw [hperase] at hmem2
                exact absurd hmem2 (Finset.not_mem_empty _)
              obtain ⟨htc, hfcr⟩ := ihc s' hinv' hpool' hcard' hckrest
              rw [hstep]
              refine ⟨htc, ?_⟩
              intro hfl
              obtain ⟨h1, h2, h3, h4, h5, h6, h7⟩ := hfcr hfl
              refine ⟨h1, h2, h3, h4, h5, h6, ?_⟩
              intro cs' hprop hext hmem
              rcases List.mem_cons.mp hmem with heq | hmem'
              · exact hcimp cs' hprop hext heq
              · exact h7 cs' hprop hext hmem'
            | true =>
              have hck0 : c < k := hck c (List.mem_cons_self _ _)
              have hnltc : node < s'.colors.length := by rw [hinv'.clen]; exact hnlt
              have hdomchar : ∀ q, domains₁.getD q ∅ =
                  if q ∈ g.nbrs node ∧ s'.colors.getD q none = none
                  then (s'.domains.getD q ∅).erase c else s'.domains.getD q ∅ := by
                intro q
                have h := fcLoop_true_domains s'.colors c (g.nbrs node) s'.domains []
                  (by rw [hfcL]) q
                rw [hfcL] at h
                exact h
              have hdlen₁ : domains₁.length = g.size := by
                have h := fcLoop_length s'.colors c (g.nbrs node) s'.domains []
                rw [hfcL] at h
                rw [← hinv'.dlen]
                exact h
              have hrestore : backtrack domains₁ rem = s'.domains := by
                have h := fcLoop_true_restore s'.colors c (g.nbrs node) s'.domains []
                  (by rw [hfcL])
                rw [hfcL] at h
                exact h
              have hdsub₁ : ∀ m, domains₁.getD m ∅ ⊆ Finset.range k := by
                intro m
                rw [hdomchar m]
                by_cases hcond : m ∈ g.nbrs node ∧ s'.colors.getD m none = none
                · rw [if_pos hcond]
                  exact (Finset.erase_subset _ _).trans (hinv'.dsub m)
                · rw [if_neg hcond]
                  exact hinv'.dsub m
              have hd0₁ : 0 < g.size → domains₁.getD 0 ∅ = Finset.range k := by
                intro h0
                rw [hdomchar 0]
                by_cases hn0 : node = 0
                · have hcond : ¬(0 ∈ g.nbrs node ∧ s'.colors.getD 0 none = none) := by
                    intro hcon
                    exact hirr 0 h0 (hn0 ▸ hcon.1)
                  rw [if_neg hcond]
                  exact hinv'.d0 h0
                · have hcond : ¬(0 ∈ g.nbrs node ∧ s'.colors.getD 0 none = none) := by
                    intro hcon
                    exact h0col' hn0 hcon.2
                  rw [if_neg hcond]
                  exact hinv'.d0 h0
              obtain ⟨colors₁, hcolors₁⟩ :
                  ∃ l : List (Option Nat), l = s'.colors.set node (some c) := ⟨_, rfl⟩
              have hclen₁ : colors₁.length = g.size := by
                rw [hcolors₁, List.length_set, hinv'.clen]
              have hcget : ∀ m, colors₁.getD m none
                  = if m = node then some c else s'.colors.getD m none := by
                intro m
                by_cases hmn : m = node
                · rw [if_pos hmn, hmn, hcolors₁]
                  exact getD_set_self hnltc
                · rw [if_neg hmn, hcolors₁, getD_set_ne hmn]
              have hcval₁ : ∀ m c', colors₁.getD m none = some c' → c' < k := by
                intro m c' hm
                rw [hcget m] at hm
                by_cases hmn : m = node
                · rw [if_pos hmn] at hm
                  have hcc : c = c' := by simpa using hm
                  omega
                · rw [if_neg hmn] at hm
                  exact hinv'.cval m c' hm
              have hpp₁ : ∀ m, m < g.size → ∀ p ∈ g.nbrs m, ∀ c',
                  colors₁.getD m none = some c' → colors₁.getD p none ≠ some c' := by
                intro m hm p hp c' hmc'
                rw [hcget m] at hmc'
                rw [hcget p]
                by_cases hmn : m = node
                · rw [if_pos hmn] at hmc'
                  have hcc : c = c' := by simpa using hmc'
                  by_cases hpn : p = node
                  · rw [hmn, hpn] at hp
                    exact absurd hp (hirr node hnlt)
                  · rw [if_neg hpn, ← hcc]
                    apply hnoc p
                    rw [← hmn]
                    exact hp
                · rw [if_neg hmn] at hmc'
                  by_cases hpn : p = node
                  · rw [if_pos hpn]
                    intro hsomeeq
                    have hcc : c = c' := by simpa using hsomeeq
                    have hpn' : node ∈ g.nbrs m := by rw [← hpn]; exact hp
                    have hmnb : m ∈ g.nbrs node := hsym m hm node hpn'
                    apply hnoc m hmnb
                    rw [hmc', hcc]
                  · rw [if_neg hpn]
                    exact hinv'.pp m hm p hp c' hmc'
              have huncol₁ : uncolored colors₁ = (uncolored s'.colors).erase node := by
                rw [hcolors₁]
                exact uncolored_set_some
              have hcard₁ : (uncolored colors₁).card = (uncolored s'.colors).card - 1 := by
                rw [huncol₁, Finset.card_erase_of_mem hnodeUnc]
              have huu₁ : s'.unused.erase c = Finset.range k \ usedSet k colors₁ := by
                rw [hcolors₁, usedSet_set_some hnodeNone' hnltc hck0,
                  sdiff_insert_eq_erase_sdiff, ← hinv'.uu]
              have hdex₁ : ∀ m, m < g.size → colors₁.getD m none = none →
                  domains₁.getD m ∅ = Finset.range k \ nbrColors g colors₁ m := by
                intro m hm hmnone
                have hmn : m ≠ node := by
                  intro he
                  rw [hcget m, if_pos he] at hmnone
                  cases hmnone
                have hmnone' : s'.colors.getD m none = none := by
                  rw [hcget m, if_neg hmn] at hmnone
                  exact hmnone
                rw [hdomchar m, hcolors₁, nbrColors_set_some hnodeNone' hnltc m]
                by_cases hmnb : m ∈ g.nbrs node
                · have hnbm : node ∈ g.nbrs m := hsym node hnlt m hmnb
                  rw [if_pos ⟨hmnb, hmnone'⟩, if_pos hnbm, hinv'.dex m hm hmnone',
                    sdiff_insert_eq_erase_sdiff]
                · have hnbm : node ∉ g.nbrs m := fun hcon => hmnb (hsym m hm node hcon)
                  rw [if_neg (fun hcon => hmnb (And.left hcon)), if_neg hnbm,
                    hinv'.dex m hm hmnone']
              obtain ⟨prest, hpooldec⟩ : ∃ t, s'.pool = 0 :: t := by
                cases hpd : s'.pool with
                | nil => exact absurd hpd hpool'
                | cons a t =>
                  rw [hpd] at hhead'
                  simp at hhead'
                  exact ⟨t, by rw [hhead']⟩
              have hkey0 : ∀ b ∈ prest,
                  (domains₁.getD b ∅).card ≤ (domains₁.getD 0 ∅).card := by
                intro b _
                rw [hd0₁ (by omega)]
                exact Finset.card_le_card (hdsub₁ b)
              have hsorted : pickSort domains₁ s'.pool = 0 :: pickSort domains₁ prest := by
                rw [hpooldec]
                exact pickSort_cons_zero _ _ hkey0
              have hsortperm : List.Perm (pickSort domains₁ s'.pool) s'.pool :=
                pickSort_perm _ _
              have hsortnd : (pickSort domains₁ s'.pool).Nodup :=
                (hsortperm.nodup_iff).mpr hinv'.poolnd
              have hsortFS : (pickSort domains₁ s'.pool).toFinset = s'.pool.toFinset :=
                List.toFinset_eq_of_perm _ _ hsortperm
              have hsortne : pickSort domains₁ s'.pool ≠ [] := by
                rw [hsorted]
                simp
              obtain ⟨next, hnext⟩ :
                  ∃ nx : Nat, nx = (pickSort domains₁ s'.pool).getLast?.getD 0 := ⟨_, rfl⟩
              have hnextlast : next = (pickSort domains₁ s'.pool).getLast hsortne := by
                rw [hnext, List.getLast?_eq_getLast _ hsortne]
                rfl
              have hnextmem : next ∈ pickSort domains₁ s'.pool := by
                rw [hnextlast]
                exact List.getLast_mem hsortne
              have hnextpool : next ∈ s'.pool := hsortperm.mem_iff.mp hnextmem
              have hnextlt : next < g.size := hinv'.poolsub next hnextpool
              have hpoolsub₂ : ∀ m ∈ (pickSort domains₁ s'.pool).dropLast, m < g.size := by
                intro m hm
                exact hinv'.poolsub m
                  (hsortperm.mem_iff.mp ((List.dropLast_sublist _).subset hm))
              have hpoolnd₂ : ((pickSort domains₁ s'.pool).dropLast).Nodup :=
                (List.dropLast_sublist _).nodup hsortnd
              have hnextnotin : next ∉ (pickSort domains₁ s'.pool).dropLast := by
                intro hmem
                have hdec := List.dropLast_concat_getLast hsortne
                have hnd : ((pickSort domains₁ s'.pool).dropLast
                    ++ [(pickSort domains₁ s'.pool).getLast hsortne]).Nodup := by
                  rw [hdec]
                  exact hsortnd
                have hdisj := (List.nodup_append.mp hnd).2.2
                apply hdisj hmem
                rw [← hnextlast]
                exact List.mem_singleton_self _
              have hFSdec : ((pickSort domains₁ s'.pool).dropLast).toFinset ∪ {next}
                  = s'.pool.toFinset := by
                rw [← hsortFS]
                ext x
                simp only [Finset.mem_union, List.mem_toFinset, Finset.mem_singleton]
                constructor
                · intro hx
                  rcases hx with hx | hx
                  · exact (List.dropLast_sublist _).subset hx
                  · rw [hx]
                    exact hnextmem
                · intro hx
                  rw [← List.dropLast_concat_getLast hsortne] at hx
                  rcases List.mem_append.mp hx with hx | hx
                  · exact Or.inl hx
                  · right
                    rw [hnextlast]
                    simpa using hx
              have hUsub : uncolored s'.colors ⊆ s'.pool.toFinset ∪ {node} := by
                rw [hpoolEq']
                intro x hx
                exact Finset.mem_union_left _ hx
              have hpoolU : s'.pool.toFinset ⊆ uncolored s'.colors ∪ {0} := by
                intro x hx
                rw [← hpoolEq']
                exact Finset.mem_union_left _ hx
              have h0pool : (0 : Nat) ∈ s'.pool := by
                rw [hpooldec]
                exact List.mem_cons_self _ _
              -- the unfolded loop body for this color
              have hstep : hloop g (hsearch g k fuel) node (c :: rest) s' =
                  (match hsearch g k fuel ((pickSort domains₁ s'.pool).getLast?.getD 0)
                      { colors := s'.colors.set node (some c), domains := domains₁,
                        unused := s'.unused.erase c,
                        pool := (pickSort domains₁ s'.pool).dropLast } with
                   | (true, s₃) => (true, s₃)
                   | (false, s₃) =>
                     hloop g (hsearch g k fuel) node rest
                       { undoColor s₃ node c (decide (c ∈ s'.unused)) with
                         pool := s₃.pool ++ [(pickSort domains₁ s'.pool).getLast?.getD 0],
                         domains := backtrack s₃.domains rem }) := by
                simp only [hloop]
                rw [if_neg hconf]
                rw [hfc]
                rfl
              rw [← hcolors₁, ← hnext] at hstep
              obtain ⟨s₂, hs₂⟩ : ∃ t : HState,
                  t = { colors := colors₁, domains := domains₁,
                        unused := s'.unused.erase c,
                        pool := (pickSort domains₁ s'.pool).dropLast } := ⟨_, rfl⟩
              rw [← hs₂] at hstep
              have hs₂c : s₂.colors = colors₁ := by rw [hs₂]
              have hs₂d : s₂.domains = domains₁ := by rw [hs₂]
              have hs₂u : s₂.unused = s'.unused.erase c := by rw [hs₂]
              have hs₂p : s₂.pool = (pickSort domains₁ s'.pool).dropLast := by rw [hs₂]
              have hinv₂ : HInv g k next s₂ := by
                constructor
                · rw [hs₂c]; exact hclen₁
                · rw [hs₂d]; exact hdlen₁
                · rw [hs₂c]; exact hcval₁
                · rw [hs₂c, hs₂d]; exact hdex₁
                · rw [hs₂d]; exact hd0₁
                · rw [hs₂d]; exact hdsub₁
                · rw [hs₂u, hs₂c]; exact huu₁
                · rw [hs₂c]; exact hpp₁
                · rw [hs₂p]; exact hpoolsub₂
                · rw [hs₂p]; exact hpoolnd₂
                · cases htail : pickSort domains₁ prest with
                  | nil =>
                    left
                    have hps1 : pickSort domains₁ s'.pool = [0] := by
                      rw [hsorted, htail]
                    have hpool1 : s'.pool = [0] := by
                      have hperm : List.Perm ([0] : List Nat) s'.pool := by
                        rw [← hps1]
                        exact hsortperm
                      exact (List.perm_singleton.mp hperm.symm)
                    constructor
                    · rw [hs₂p, hps1]
                      rfl
                    · intro m hm
                      rw [hs₂c, hcget m]
                      by_cases hmn : m = node
                      · rw [if_pos hmn]
                        simp
                      · rw [if_neg hmn]
                        intro hmnone
                        have hmU : m ∈ uncolored s'.colors :=
                          mem_uncolored.mpr ⟨by rw [hinv'.clen]; omega, hmnone⟩
                        have hmem := hUsub hmU
                        rw [hpool1] at hmem
                        simp only [Finset.mem_union, List.mem_toFinset,
                          List.mem_singleton, Finset.mem_singleton] at hmem
                        rcases hmem with h0 | hn
                        · by_cases hn0 : node = 0
                          · exact hmn (h0.trans hn0.symm)
                          · exact h0col' hn0 (by rw [← h0]; exact hmnone)
                        · exact hmn hn
                  | cons t ts =>
                    right
                    have hsorted2 : pickSort domains₁ s'.pool = 0 :: t :: ts := by
                      rw [hsorted, htail]
                    have hnextne0 : next ≠ 0 := by
                      intro h0
                      apply hnextnotin
                      rw [hsorted2, List.dropLast_cons₂, h0]
                      exact List.mem_cons_self _ _
                    have hnextnode : next ≠ node := by
                      intro he
                      by_cases hn0 : node ∈ s'.pool
                      · exact hnextne0 (he ▸ hnodeInPool' hn0)
                      · exact hn0 (he ▸ hnextpool)
                    have hnextU : next ∈ uncolored s'.colors := by
                      have h1 : next ∈ s'.pool.toFinset := List.mem_toFinset.mpr hnextpool
                      have h2 := hpoolU h1
                      rcases Finset.mem_union.mp h2 with h' | h'
                      · exact h'
                      · exact absurd (Finset.mem_singleton.mp h') hnextne0
                    have hnextNone : s'.colors.getD next none = none :=
                      (mem_uncolored.mp hnextU).2
                    refine ⟨hnextlt, ?_, ?_, ?_, ?_, ?_⟩
                    · rw [hs₂c, hcget next, if_neg hnextnode]
                      exact hnextNone
                    · rw [hs₂p, hsorted2, List.dropLast_cons₂]
                      rfl
                    · rw [hs₂p, hs₂c, hFSdec, huncol₁]
                      by_cases hnp : node ∈ s'.pool
                      · have hn0 : node = 0 := hnodeInPool' hnp
                        have h0FS : (0 : Nat) ∈ s'.pool.toFinset :=
                          List.mem_toFinset.mpr h0pool
                        have hU0 : (0 : Nat) ∈ uncolored s'.colors := by
                          rw [← hn0]
                          exact hnodeUnc
                        have h1 : s'.pool.toFinset = uncolored s'.colors := by
                          have h2 := hpoolEq'
                          rw [hn0] at h2
                          have h3 : s'.pool.toFinset ∪ {0} = s'.pool.toFinset :=
                            Finset.union_eq_left.mpr (Finset.singleton_subset_iff.mpr h0FS)
                          have h4 : uncolored s'.colors ∪ {0} = uncolored s'.colors :=
                            Finset.union_eq_left.mpr (Finset.singleton_subset_iff.mpr hU0)
                          rw [h3, h4] at h2
                          exact h2
                        rw [h1, hn0]
                        rw [Finset.union_comm, ← Finset.insert_eq, Finset.insert_erase hU0]
                      · have hnFS : node ∉ s'.pool.toFinset :=
                          fun hcon => hnp (List.mem_toFinset.mp hcon)
                        have hn0 : node ≠ 0 := fun he => hnp (he ▸ h0pool)
                        have h2 := congrArg (fun t : Finset Nat => t.erase node) hpoolEq'
                        simp only at h2
                        rw [Finset.erase_union_distrib, Finset.erase_union_distrib,
                          Finset.erase_eq_of_not_mem hnFS, Finset.erase_singleton,
                          Finset.union_empty,
                          Finset.erase_eq_of_not_mem
                            (Finset.not_mem_singleton.mpr hn0)] at h2
                        exact h2
                    · intro hcon
                      rw [hs₂p] at hcon
                      exact absurd hcon hnextnotin
                    · intro _
                      rw [hs₂c, hcget 0]
                      by_cases hn0 : node = 0
                      · rw [if_pos (by omega)]
                        simp
                      · rw [if_neg (by omega)]
                        exact h0col' hn0
              have hcard₂ : (uncolored s₂.colors).card < fuel := by
                rw [hs₂c, hcard₁]
                omega
              obtain ⟨iht, ihf⟩ := ih next s₂ hinv₂ hcard₂
              rcases hrec : hsearch g k fuel next s₂ with ⟨rb, s₃⟩
              rw [hrec] at iht ihf hstep
              cases rb with
              | true =>
                have hstep₂ : hloop g (hsearch g k fuel) node (c :: rest) s'
                    = (true, s₃) := by
                  rw [hstep]
                obtain ⟨out, h1, h2⟩ := iht rfl
                rw [hstep₂]
                exact ⟨fun _ => ⟨out, h1, h2⟩, fun hfl => by simp at hfl⟩
              | false =>
                obtain ⟨hc3, hd3, hu3, hpf3, hpn3, hph3, hcomp3⟩ := ihf rfl
                obtain ⟨f', hf'⟩ : ∃ f', fuel = f' + 1 := ⟨fuel - 1, by omega⟩
                have hpool₂ne : s₂.pool ≠ [] := by
                  intro hpe
                  rw [hf'] at hrec
                  rw [show hsearch g k (f' + 1) next s₂ = (true, s₂) from by
                    simp [hsearch, hpe]] at hrec
                  simp at hrec
                have hph₂ : s₂.pool.head? = some 0 := by
                  rw [hs₂p]
                  cases htail : pickSort domains₁ prest with
                  | nil =>
                    exfalso
                    apply hpool₂ne
                    rw [hs₂p, hsorted, htail]
                    rfl
                  | cons t ts =>
                    rw [hsorted, htail, List.dropLast_cons₂]
                    rfl
                have hs₃c : s₃.colors = colors₁ := by rw [hc3, hs₂c]
                have hs₃d : s₃.domains = domains₁ := by rw [hd3, hs₂d]
                have hs₃u : s₃.unused = s'.unused.erase c := by rw [hu3, hs₂u]
                have hcolback : s₃.colors.set node none = s'.colors := by
                  rw [hs₃c, hcolors₁, List.set_set, set_none_cancel hnodeNone']
                have hdomback : backtrack s₃.domains rem = s'.domains := by
                  rw [hs₃d, hrestore]
                have hunback : (if decide (c ∈ s'.unused) = true then insert c s₃.unused
                    else s₃.unused) = s'.unused := by
                  rw [hs₃u]
                  by_cases hcu : c ∈ s'.unused
                  · rw [if_pos (by simpa using hcu), Finset.insert_erase hcu]
                  · rw [if_neg (by simpa using hcu), Finset.erase_eq_of_not_mem hcu]
                have hs₄eq : ({ undoColor s₃ node c (decide (c ∈ s'.unused)) with
                      pool := s₃.pool ++ [next],
                      domains := backtrack s₃.domains rem } : HState)
                    = ⟨s'.colors, s'.domains, s'.unused, s₃.pool ++ [next]⟩ := by
                  show HState.mk (s₃.colors.set node none) (backtrack s₃.domains rem)
                      (if decide (c ∈ s'.unused) = true then insert c s₃.unused
                        else s₃.unused) (s₃.pool ++ [next]) = _
                  rw [hcolback, hdomback, hunback]
                have hstep₂ : hloop g (hsearch g k fuel) node (c :: rest) s'
                    = hloop g (hsearch g k fuel) node rest
                        ⟨s'.colors, s'.domains, s'.unused, s₃.pool ++ [next]⟩ := by
                  rw [hstep, ← hs₄eq]
                have hpFS₄ : (s₃.pool ++ [next]).toFinset = s'.pool.toFinset := by
                  rw [List.toFinset_append]
                  have h1 : ([next] : List Nat).toFinset = {next} := by simp
                  rw [h1, hpf3, hs₂p]
                  exact hFSdec
                have hpnd₄ : (s₃.pool ++ [next]).Nodup := by
                  rw [List.nodup_append]
                  refine ⟨hpn3, List.nodup_singleton _, ?_⟩
                  intro a ha hb
                  have hab : a = next := by simpa using hb
                  subst hab
                  apply hnextnotin
                  have h1 := List.mem_toFinset.mpr ha
                  rw [hpf3, hs₂p] at h1
                  exact List.mem_toFinset.mp h1
                have hph₄ : (s₃.pool ++ [next]).head? = s'.pool.head? := by
                  rw [List.head?_append, hph3, hph₂, hhead']
                  rfl
                have hinv₄ : HInv g k node
                    (⟨s'.colors, s'.domains, s'.unused, s₃.pool ++ [next]⟩ : HState) := by
                  constructor
                  · exact hinv'.clen
                  · exact hinv'.dlen
                  · exact hinv'.cval
                  · exact hinv'.dex
                  · exact hinv'.d0
                  · exact hinv'.dsub
                  · exact hinv'.uu
                  · exact hinv'.pp
                  · intro m hm
                    have h1 := List.mem_toFinset.mpr hm
                    rw [hpFS₄] at h1
                    exact hinv'.poolsub m (List.mem_toFinset.mp h1)
                  · exact hpnd₄
                  · right
                    refine ⟨hnlt, hnodeNone', ?_, ?_, ?_, h0col'⟩
                    · rw [show (⟨s'.colors, s'.domains, s'.unused,
                        s₃.pool ++ [next]⟩ : HState).pool = s₃.pool ++ [next] from rfl,
                        hph₄]
                      exact hhead'
                    · rw [show (⟨s'.colors, s'.domains, s'.unused,
                        s₃.pool ++ [next]⟩ : HState).pool = s₃.pool ++ [next] from rfl,
                        hpFS₄]
                      exact hpoolEq'
                    · intro hcon
                      apply hnodeInPool'
                      have h1 := List.mem_toFinset.mpr hcon
                      rw [hpFS₄] at h1
                      exact List.mem_toFinset.mp h1
                obtain ⟨htc₄, hfc₄⟩ := ihc
                  (⟨s'.colors, s'.domains, s'.unused, s₃.pool ++ [next]⟩ : HState)
                  hinv₄ (by simp) hcard' hckrest
                rw [hstep₂]
                refine ⟨htc₄, ?_⟩
                intro hfl
                obtain ⟨h1, h2, h3, h4, h5, h6, h7⟩ := hfc₄ hfl
                refine ⟨h1, h2, h3, h4.trans hpFS₄, h5, h6.trans hph₄, ?_⟩
                intro cs' hprop hext hmem
                rcases List.mem_cons.mp hmem with heq | hmem'
                · apply hcomp3 cs' hprop
                  rw [hs₂c]
                  intro m c' hm
                  rw [hcget m] at hm
                  by_cases hmn : m = node
                  · rw [if_pos hmn] at hm
                    have hcc : c = c' := by simpa using hm
                    rw [hmn, heq, ← hcc]
                  · rw [if_neg hmn] at hm
                    exact hext m c' hm
                · exact h7 cs' hprop hext hmem'
      have hstep : hsearch g k (fuel + 1) node s
          = hloop g (hsearch g k fuel) node
              (order_colors g k s.colors s.domains node s.unused) s := by
        simp [hsearch, hpool]
      have hck : ∀ c ∈ order_colors g k s.colors s.domains node s.unused, c < k := by
        apply order_colors_lt
        rw [hinv.uu]
        exact Finset.sdiff_subset
      obtain ⟨ht, hf⟩ := loop (order_colors g k s.colors s.domains node s.unused) s
        hinv hpool hfuel hck
      rw [hstep]
      refine ⟨ht, ?_⟩
      intro hfl
      obtain ⟨h1, h2, h3, h4, h5, h6, h7⟩ := hf hfl
      refine ⟨h1, h2, h3, h4, h5, h6, ?_⟩
      intro cs hprop hext
      have hcslen : cs.length = g.size := hprop.1
      have hnodeval : cs.getD node 0 < k :=
        hprop.2.1 _ (getD_mem (by omega : node < cs.length))
      have hnodedom : cs.getD node 0 ∈ s.domains.getD node ∅ := by
        rw [hinv.dex node hnlt hnodeNone]
        refine Finset.mem_sdiff.mpr ⟨Finset.mem_range.mpr hnodeval, ?_⟩
        intro hmem
        obtain ⟨q, hq, hqc⟩ := mem_nbrColors.mp hmem
        exact hprop.2.2 node hnlt q hq (hext q _ hqc).symm
      by_cases hcu : cs.getD node 0 ∈ s.unused
      · have hune : ¬ s.unused = ∅ := by
          intro he
          rw [he] at hcu
          exact absurd hcu (Finset.not_mem_empty _)
        have hne' : s.unused.Nonempty := Finset.nonempty_iff_ne_empty.mpr hune
        have hrep : s.unused.min' hne' ∈ s.unused := Finset.min'_mem _ _
        have hrepk : s.unused.min' hne' < k := by
          have hsub : s.unused ⊆ Finset.range k := by
            rw [hinv.uu]
            exact Finset.sdiff_subset
          exact Finset.mem_range.mp (hsub hrep)
        have hswprop : Proper g k (swapColors (cs.getD node 0) (s.unused.min' hne') cs) :=
          proper_swapColors hval hprop hnodeval hrepk
        have hswext : Extends s.colors (swapColors (cs.getD node 0) (s.unused.min' hne') cs)
            := by
          intro m c' hm
          have hcused : some c' ∈ s.colors := by
            rw [← hm]
            exact getD_mem (getD_some_lt_length hm)
          have hc'used : c' ∈ usedSet k s.colors :=
            mem_usedSet.mpr ⟨hinv.cval m c' hm, hcused⟩
          have hc'ne1 : c' ≠ cs.getD node 0 := by
            intro he
            rw [← he, hinv.uu] at hcu
            exact (Finset.mem_sdiff.mp hcu).2 hc'used
          have hc'ne2 : c' ≠ s.unused.min' hne' := by
            intro he
            have hmem := hrep
            rw [← he, hinv.uu] at hmem
            exact (Finset.mem_sdiff.mp hmem).2 hc'used
          have hmlt : m < cs.length := by
            rw [hcslen, ← hinv.clen]
            exact getD_some_lt_length hm
          rw [getD_swapColors hmlt, hext m c' hm, swapFn_of_ne hc'ne1 hc'ne2]
        have hswnode : (swapColors (cs.getD node 0) (s.unused.min' hne') cs).getD node 0
            = s.unused.min' hne' := by
          rw [getD_swapColors (by omega : node < cs.length), swapFn_left]
        apply h7 _ hswprop hswext
        rw [hswnode]
        exact mem_order_colors_min hune
      · exact h7 cs hprop hext (mem_order_colors_of_mem_diff hnodedom hnodeval hcu)

/-! ### Top-level runs of the two searches -/

/-- Every full coloring extends the all-unassigned starting assignment. -/
theorem extends_replicate (n : Nat) (cs : List Nat) :
    Extends (List.replicate n none) cs := by
  intro m c hm
  rw [getD_replicate_none] at hm
  cases hm

/-- The starting state of the naive search satisfies its invariant. -/
theorem ninv_init (g : VecVecGraph) (k : Nat) :
    NInv g k 0 (List.replicate g.size none) := by
  refine ⟨by simp, Nat.zero_le _, fun m _ => getD_replicate_none,
    fun m hm => by omega, ?_⟩
  intro m _ p _ c hc
  rw [getD_replicate_none] at hc
  cases hc

/-- Running the naive search from scratch: either it returns the
lexicographically least proper coloring, or it returns `none` and no proper
coloring exists. -/
theorem naive_cases (g : VecVecGraph) (hg : g.WF) (k : Nat) :
    (∃ out : List Nat, NaiveColoring.colorRun g k = some out ∧ Proper g k out ∧
      ∀ out', Proper g k out' → lexLe out out')
    ∨ (NaiveColoring.colorRun g k = none ∧ ∀ cs, ¬ Proper g k cs) := by
  obtain ⟨ht, hf⟩ := nsearch_spec g hg k (g.size + 1) 0 (List.replicate g.size none)
    (ninv_init g k) (by omega)
  cases hR : (nsearch g k (g.size + 1) 0 (List.replicate g.size none)).1 with
  | true =>
    obtain ⟨out, hcol, hprop, _, hlex⟩ := ht hR
    left
    refine ⟨out, ?_, hprop, ?_⟩
    · simp only [NaiveColoring.colorRun]
      rw [hcol, collectColors_map_some]
    · intro out' hprop'
      have := hlex out' hprop' (extends_replicate _ _)
      simpa using this
  | false =>
    obtain ⟨hcol, hno⟩ := hf hR
    right
    have hnoP : ∀ cs, ¬ Proper g k cs := fun cs hp => hno cs hp (extends_replicate _ _)
    refine ⟨?_, hnoP⟩
    have hpos : 0 < g.size := by
      by_contra h0
      have hsz : g.size = 0 := by omega
      exact hnoP [] ⟨by simp [hsz], by simp, fun m hm => absurd hm (by omega)⟩
    simp only [NaiveColoring.colorRun]
    rw [hcol, collectColors_replicate_none hpos]

theorem getD_replicate_lt {α : Type} {n i : Nat} {a d : α} (h : i < n) :
    (List.replicate n a).getD i d = a := by
  rw [List.getD_eq_getElem?_getD, List.getElem?_replicate, if_pos h]
  rfl

theorem usedSet_replicate {k n : Nat} : usedSet k (List.replicate n none) = ∅ := by
  ext x
  simp [mem_usedSet, List.mem_replicate]

theorem uncolored_replicate {n : Nat} :
    uncolored (List.replicate n (none : Option Nat)) = Finset.range n := by
  ext m
  rw [mem_uncolored]
  simp [getD_replicate_none]

theorem nbrColors_replicate {g : VecVecGraph} {n m : Nat} :
    nbrColors g (List.replicate n none) m = ∅ := by
  ext x
  rw [mem_nbrColors]
  simp [getD_replicate_none]

theorem toFinset_list_range (n : Nat) : (List.range n).toFinset = Finset.range n := by
  ext m
  simp

/-- The starting state built by `HeuristicColoring::create` and `color`. -/
def initState (g : VecVecGraph) (k : Nat) : HState :=
  { colors := List.replicate g.size none,
    domains := List.replicate g.size (Finset.range k),
    unused := Finset.range k,
    pool := List.range g.size }

/-- The starting state of the heuristic search satisfies its invariant. -/
theorem hinv_init (g : VecVecGraph) (k : Nat) (s : HState)
    (hc : s.colors = List.replicate g.size none)
    (hd : s.domains = List.replicate g.size (Finset.range k))
    (hu : s.unused = Finset.range k)
    (hp : s.pool = List.range g.size) : HInv g k 0 s := by
  refine ⟨by rw [hc]; simp, by rw [hd]; simp, ?_, ?_, ?_, ?_, ?_, ?_, ?_, ?_, ?_⟩
  · intro m c h
    rw [hc, getD_replicate_none] at h
    cases h
  · intro m hm hnone
    rw [hc, hd, getD_replicate_lt hm, nbrColors_replicate, Finset.sdiff_empty]
  · intro hpos
    rw [hd, getD_replicate_lt hpos]
  · intro m
    by_cases hm : m < g.size
    · rw [hd, getD_replicate_lt hm]
    · rw [hd, getD_of_length_le (by simp; omega)]
      exact Finset.empty_subset _
  · rw [hu, hc, usedSet_replicate, Finset.sdiff_empty]
  · intro m _ p _ c hcon
    rw [hc, getD_replicate_none] at hcon
    cases hcon
  · intro m hm
    rw [hp] at hm
    exact List.mem_range.mp hm
  · rw [hp]
    exact List.nodup_range _
  · by_cases hsz : g.size = 0
    · left
      refine ⟨by rw [hp, hsz]; rfl, fun m hm => absurd hm (by omega)⟩
    · right
      obtain ⟨n, hn⟩ : ∃ n, g.size = n + 1 := ⟨g.size - 1, by omega⟩
      refine ⟨by omega, by rw [hc]; exact getD_replicate_none, ?_, ?_,
        fun _ => rfl, fun h => absurd rfl h⟩
      · rw [hp, hn, List.range_succ_eq_map]
        rfl
      · rw [hp, hc, toFinset_list_range, uncolored_replicate]

/-- Running the heuristic search from scratch: either it returns a proper
coloring, or it returns `none` and no proper coloring exists. -/
theorem heuristic_cases (g : VecVecGraph) (hg : g.WF) (k : Nat) :
    (∃ out : List Nat, HeuristicColoring.color g k = some out ∧ Proper g k out)
    ∨ (HeuristicColoring.color g k = none ∧ ∀ cs, ¬ Proper g k cs) := by
  obtain ⟨ht, hf⟩ := hsearch_spec g hg k (g.size + 1) 0 (initState g k)
    (hinv_init g k _ rfl rfl rfl rfl)
    (by rw [show (initState g k).colors = List.replicate g.size none from rfl,
          uncolored_replicate]
        simp)
  have hcolor : HeuristicColoring.color g k
      = collectColors (hsearch g k (g.size + 1) 0 (initState g k)).2.colors := rfl
  cases hR : (hsearch g k (g.size + 1) 0 (initState g k)).1 with
  | true =>
    obtain ⟨out, hcol, hprop⟩ := ht hR
    left
    refine ⟨out, ?_, hprop⟩
    rw [hcolor, hcol, collectColors_map_some]
  | false =>
    obtain ⟨hcol, _, _, _, _, _, hno⟩ := hf hR
    right
    have hnoP : ∀ cs, ¬ Proper g k cs := fun cs hp =>
      hno cs hp (extends_replicate g.size cs)
    refine ⟨?_, hnoP⟩
    have hpos : 0 < g.size := by
      by_contra h0
      have hsz : g.size = 0 := by omega
      exact hnoP [] ⟨by simp [hsz], by simp, fun m hm => absurd hm (by omega)⟩
    rw [hcolor, hcol]
    exact collectColors_replicate_none hpos

/-- A proper coloring passes the validator on every reported edge. -/
theorem validate_of_proper {g : VecVecGraph} {k : Nat} {cs : List Nat}
    (hlen : g.edges.length = g.size) (hp : Proper g k cs) :
    validate g cs = true := by
  rw [validate, List.all_eq_true]
  intro e he
  simp only [VecVecGraph.edgesList] at he
  rw [List.mem_flatMap] at he
  obtain ⟨fa, hfa, he2⟩ := he
  rw [List.mem_map] at he2
  obtain ⟨t, ht, he3⟩ := he2
  rw [List.mem_enum_iff_getElem?] at hfa
  obtain ⟨hfalt, hfaget⟩ := List.getElem?_eq_some.mp hfa
  have hnb : t ∈ g.nbrs fa.1 := by
    rw [VecVecGraph.nbrs, List.getD_eq_getElem?_getD, hfa]
    exact ht
  have hne := hp.2.2 fa.1 (by omega) t hnb
  rw [← he3]
  show (!(cs.getD fa.1 0 == cs.getD t 0)) = true
  rw [beq_eq_false_iff_ne.mpr hne]
  rfl

/-! ### The claims -/

/-- C1: for every well-formed graph and color count, the heuristic search
returns `some` iff the naive search does, and a `none` result from either
search means no proper coloring with that many colors exists. -/
theorem heuristic_naive_agree (g : VecVecGraph) (hg : g.WF) (k : Nat) :
    ((HeuristicColoring.color g k).isSome ↔ (NaiveColoring.colorRun g k).isSome)
    ∧ (HeuristicColoring.color g k = none → ∀ cs, ¬ Proper g k cs)
    ∧ (NaiveColoring.colorRun g k = none → ∀ cs, ¬ Proper g k cs) := by
  rcases heuristic_cases g hg k with ⟨out, hh, hp⟩ | ⟨hh, hnoP⟩
  · rcases naive_cases g hg k with ⟨out', hn, _, _⟩ | ⟨_, hnoP'⟩
    · refine ⟨by rw [hh, hn]; simp, fun hc => ?_, fun hc => ?_⟩
      · rw [hh] at hc
        simp at hc
      · rw [hn] at hc
        simp at hc
    · exact absurd hp (hnoP' out)
  · rcases naive_cases g hg k with ⟨out', hn, hp', _⟩ | ⟨hn, hnoP'⟩
    · exact absurd hp' (hnoP out')
    · exact ⟨by rw [hh, hn], fun _ => hnoP, fun _ => hnoP'⟩

theorem heuristic_naive_agree_witness :
    ((HeuristicColoring.color cycle5 2).isSome ↔ (NaiveColoring.colorRun cycle5 2).isSome)
    ∧ (HeuristicColoring.color cycle5 2 = none → ∀ cs, ¬ Proper cycle5 2 cs)
    ∧ (NaiveColoring.colorRun cycle5 2 = none → ∀ cs, ¬ Proper cycle5 2 cs) :=
  heuristic_naive_agree cycle5 (by decide) 2

/-- C2: a successful heuristic coloring is complete (one color below the
count per node) and proper: it passes the validator on every edge the
graph reports. -/
theorem heuristic_color_complete_valid (g : VecVecGraph) (hg : g.WF) (k : Nat)
    (out : List Nat) (h : HeuristicColoring.color g k = some out) :
    out.length = g.size ∧ (∀ c ∈ out, c < k) ∧ validate g out = true := by
  rcases heuristic_cases g hg k with ⟨out', hh, hp⟩ | ⟨hh, _⟩
  · rw [hh] at h
    obtain rfl : out' = out := Option.some_inj.mp h
    exact ⟨hp.1, hp.2.1, validate_of_proper hg.1 hp⟩
  · rw [hh] at h
    simp at h

theorem heuristic_color_complete_valid_witness :
    [0, 1, 2, 0, 1].length = cycle5.size ∧ (∀ c ∈ [0, 1, 2, 0, 1], c < 3)
      ∧ validate cycle5 [0, 1, 2, 0, 1] = true :=
  heuristic_color_complete_valid cycle5 (by decide) 3 [0, 1, 2, 0, 1] (by decide)

/-- C3: forward checking after tentatively assigning `c` to `node`.  On
success, `c` is removed from the domain of exactly the uncolored neighbors
of `node` (and every removal that was possible is recorded), the recorded
removals describe exactly what was removed, and undoing them restores the
original domains.  On failure (some neighbor's domain emptied), the
returned domains are already the original ones (the removals of this step
were undone, no more and no less), no removal record is returned, and
there is indeed an uncolored neighbor whose domain was about to empty. -/
theorem forward_check_spec (g : VecVecGraph) (colors : List (Option Nat))
    (domains : List (Finset Nat)) (node c : Nat) :
    (∀ domains' rem, forward_check g colors domains node c = (true, domains', rem) →
      (∀ q, domains'.getD q ∅ =
        if q ∈ g.nbrs node ∧ colors.getD q none = none
        then (domains.getD q ∅).erase c else domains.getD q ∅)
      ∧ (∀ pc ∈ rem, pc.2 = c ∧ pc.1 ∈ g.nbrs node ∧ colors.getD pc.1 none = none
          ∧ c ∈ domains.getD pc.1 ∅)
      ∧ (∀ q ∈ g.nbrs node, colors.getD q none = none → c ∈ domains.getD q ∅ →
          (q, c) ∈ rem)
      ∧ backtrack domains' rem = domains)
    ∧ (∀ domains' rem, forward_check g colors domains node c = (false, domains', rem) →
      domains' = domains ∧ rem = []
      ∧ ∃ p ∈ g.nbrs node, colors.getD p none = none ∧ c ∈ domains.getD p ∅
          ∧ (domains.getD p ∅).erase c = ∅) := by
  constructor
  · intro domains' rem hfc
    have hf : fcLoop colors c (g.nbrs node) domains [] = (true, domains', rem) := hfc
    have h1 : (fcLoop colors c (g.nbrs node) domains []).1 = true := by rw [hf]
    have hdom := fcLoop_true_domains colors c (g.nbrs node) domains [] h1
    rw [hf] at hdom
    obtain ⟨rem', hr1, hr2, hr3⟩ := fcLoop_true_rem colors c (g.nbrs node) domains [] h1
    rw [hf] at hr1
    have hrem : rem = rem' := by simpa using hr1
    have hres := fcLoop_true_restore colors c (g.nbrs node) domains [] h1
    rw [hf] at hres
    refine ⟨hdom, ?_, ?_, hres⟩
    · intro pc hpc
      rw [hrem] at hpc
      exact hr2 pc hpc
    · intro q hq hqn hqc
      rw [hrem]
      simpa using hr3 q hq hqn hqc
  · intro domains' rem hfc
    have hf : fcLoop colors c (g.nbrs node) domains [] = (false, domains', rem) := hfc
    have h1 : (fcLoop colors c (g.nbrs node) domains []).1 = false := by rw [hf]
    obtain ⟨ha, hb⟩ := fcLoop_false_restore colors c (g.nbrs node) domains [] h1
    rw [hf] at ha hb
    refine ⟨by simpa using ha, hb, ?_⟩
    exact fcLoop_false_cause colors c (g.nbrs node) domains [] h1

theorem forward_check_spec_witness :
    backtrack [Finset.range 2, (Finset.range 2).erase 0, Finset.range 2, Finset.range 2,
        (Finset.range 2).erase 0] [(4, 0), (1, 0)]
      = List.replicate 5 (Finset.range 2) :=
  ((forward_check_spec cycle5 (List.replicate 5 none) (List.replicate 5 (Finset.range 2))
    0 0).1 _ _ (by decide)).2.2.2

/-- C4: the candidate colors for the branched-on node are listed in
ascending order of impact (the number of uncolored neighbors whose domain
still holds the color), so a strictly lower-impact candidate is always
tried before a strictly higher-impact one. -/
theorem order_colors_sorted (g : VecVecGraph) (k : Nat) (colors : List (Option Nat))
    (domains : List (Finset Nat)) (node : Nat) (unused : Finset Nat) :
    (order_colors g k colors domains node unused).Pairwise
      (fun a b => impact g colors domains node a ≤ impact g colors domains node b) := by
  haveI : IsTotal Nat (fun a b => impact g colors domains node a
      ≤ impact g colors domains node b) := ⟨fun a b => le_total _ _⟩
  haveI : IsTrans Nat (fun a b => impact g colors domains node a
      ≤ impact g colors domains node b) := ⟨fun _ _ _ h1 h2 => le_trans h1 h2⟩
  exact List.sorted_insertionSort _ _

/-- Unfolding of one `hloop` iteration in the branching case: with no
direct conflict and a successful forward check, the color is assigned, the
pool is sorted by descending domain size, the search branches on the last
(minimum-domain) element with that element removed from the pool, and on
failure the element is pushed back onto the pool. -/
theorem hloop_cons_branch (g : VecVecGraph) (rec : Nat → HState → Bool × HState)
    (node c : Nat) (rest : List Nat) (s : HState) (domains₁ : List (Finset Nat))
    (rem : List (Nat × Nat))
    (hconf : ((g.nbrs node).any fun p => s.colors.getD p none == some c) = false)
    (hfc : forward_check g s.colors s.domains node c = (true, domains₁, rem)) :
    hloop g rec node (c :: rest) s =
      match rec ((pickSort domains₁ s.pool).getLast?.getD 0)
          { colors := s.colors.set node (some c), domains := domains₁,
            unused := s.unused.erase c, pool := (pickSort domains₁ s.pool).dropLast } with
      | (true, s₃) => (true, s₃)
      | (false, s₃) =>
        hloop g rec node rest
          { undoColor s₃ node c (decide (c ∈ s.unused)) with
            pool := s₃.pool ++ [(pickSort domains₁ s.pool).getLast?.getD 0],
            domains := backtrack s₃.domains rem } := by
  have hne : ¬(((g.nbrs node).any fun p => s.colors.getD p none == some c) = true) := by
    rw [hconf]
    simp
  simp only [hloop]
  rw [if_neg hne, hfc]
  rfl

/-- C5: after a successful assignment, the next branching node is the pool
element of smallest current domain (the last element of the stable
descending sort); it is removed from the pool when chosen, and when the
branch under it fails it is pushed back, so the pool contents are
preserved up to permutation. -/
theorem mcv_pick_spec :
    (∀ (domains : List (Finset Nat)) (pool : List Nat), pool ≠ [] →
      (pickSort domains pool).getLast?.getD 0 ∈ pool
      ∧ (∀ m ∈ pool, (domains.getD ((pickSort domains pool).getLast?.getD 0) ∅).card
          ≤ (domains.getD m ∅).card)
      ∧ List.Perm ((pickSort domains pool).dropLast
          ++ [(pickSort domains pool).getLast?.getD 0]) pool)
    ∧ (∀ (g : VecVecGraph) (rec : Nat → HState → Bool × HState) (node c : Nat)
        (rest : List Nat) (s : HState) (domains₁ : List (Finset Nat))
        (rem : List (Nat × Nat)) (s₃ : HState),
        ((g.nbrs node).any fun p => s.colors.getD p none == some c) = false →
        forward_check g s.colors s.domains node c = (true, domains₁, rem) →
        rec ((pickSort domains₁ s.pool).getLast?.getD 0)
            { colors := s.colors.set node (some c), domains := domains₁,
              unused := s.unused.erase c,
              pool := (pickSort domains₁ s.pool).dropLast } = (false, s₃) →
        hloop g rec node (c :: rest) s
          = hloop g rec node rest
              { undoColor s₃ node c (decide (c ∈ s.unused)) with
                pool := s₃.pool ++ [(pickSort domains₁ s.pool).getLast?.getD 0],
                domains := backtrack s₃.domains rem }) := by
  constructor
  · intro domains pool hne
    have hperm := pickSort_perm domains pool
    have hsne : pickSort domains pool ≠ [] := by
      intro he
      rw [he] at hperm
      exact hne (List.Perm.nil_eq hperm).symm
    have hlast : (pickSort domains pool).getLast?.getD 0
        = (pickSort domains pool).getLast hsne := by
      rw [List.getLast?_eq_getLast _ hsne]
      rfl
    have hmem : (pickSort domains pool).getLast hsne ∈ pickSort domains pool :=
      List.getLast_mem hsne
    refine ⟨by rw [hlast]; exact hperm.mem_iff.mp hmem, ?_, ?_⟩
    · intro m hm
      have hm' : m ∈ pickSort domains pool := hperm.mem_iff.mpr hm
      rcases pairwise_rel_getLast (pickSort_sorted domains pool) hsne m hm' with h | h
      · rw [hlast]
        exact h
      · rw [hlast, ← h]
    · rw [hlast, List.dropLast_append_getLast hsne]
      exact hperm
  · intro g rec node c rest s domains₁ rem s₃ hconf hfc hrec
    rw [hloop_cons_branch g rec node c rest s domains₁ rem hconf hfc, hrec]

theorem mcv_pick_spec_witness :
    (pickSort [Finset.range 2, Finset.range 1] [0, 1]).getLast?.getD 0 ∈ [0, 1]
    ∧ (∀ m ∈ [0, 1],
        ([Finset.range 2, Finset.range 1].getD
            ((pickSort [Finset.range 2, Finset.range 1] [0, 1]).getLast?.getD 0) ∅).card
          ≤ ([Finset.range 2, Finset.range 1].getD m ∅).card)
    ∧ List.Perm ((pickSort [Finset.range 2, Finset.range 1] [0, 1]).dropLast
        ++ [(pickSort [Finset.range 2, Finset.range 1] [0, 1]).getLast?.getD 0]) [0, 1] :=
  mcv_pick_spec.1 [Finset.range 2, Finset.range 1] [0, 1] (by decide)

/-- C6: the unused-color set mirrors assignment one-to-one: undoing an
assignment with the removal flag the assignment returned restores the
whole state; an assignment preserves the characterization of the set as
the colors below the budget held by no node; and any color in a set so
characterized is held by no currently colored node. -/
theorem unused_tracking_spec :
    (∀ (s : HState) (node c : Nat), s.colors.getD node none = none →
      node < s.colors.length →
      undoColor (assignColor s node c).2 node c (assignColor s node c).1 = s)
    ∧ (∀ (s : HState) (k node c : Nat), c < k → node < s.colors.length →
        s.colors.getD node none = none →
        s.unused = Finset.range k \ usedSet k s.colors →
        (assignColor s node c).2.unused
          = Finset.range k \ usedSet k (assignColor s node c).2.colors)
    ∧ (∀ (s : HState) (k c' : Nat), s.unused = Finset.range k \ usedSet k s.colors →
        c' ∈ s.unused → ∀ m, s.colors.getD m none ≠ some c') := by
  refine ⟨?_, ?_, ?_⟩
  · intro s node c hnone hlt
    obtain ⟨cs, ds, u, p⟩ := s
    by_cases hc : c ∈ u
    · simp only [assignColor, undoColor]
      rw [List.set_set, set_none_cancel hnone, if_pos (decide_eq_true hc),
        Finset.insert_erase hc]
    · simp only [assignColor, undoColor]
      rw [List.set_set, set_none_cancel hnone,
        if_neg (by simpa using hc : ¬(decide (c ∈ u) = true)),
        Finset.erase_eq_of_not_mem hc]
  · intro s k node c hck hlt hnone hu
    have h2 : (assignColor s node c).2.unused = s.unused.erase c := rfl
    have h3 : (assignColor s node c).2.colors = s.colors.set node (some c) := rfl
    rw [h2, h3, usedSet_set_some hnone hlt hck, sdiff_insert_eq_erase_sdiff, hu]
  · intro s k c' hu hc' m hm
    have hlt : m < s.colors.length := getD_some_lt_length hm
    have hmem : some c' ∈ s.colors := by
      rw [← hm]
      exact getD_mem hlt
    rw [hu] at hc'
    obtain ⟨hrange, hnot⟩ := Finset.mem_sdiff.mp hc'
    exact hnot (mem_usedSet.mpr ⟨Finset.mem_range.mp hrange, hmem⟩)

theorem unused_tracking_witness :
    undoColor (assignColor (⟨[none, some 1], [], Finset.range 3, [0]⟩ : HState) 0 2).2 0 2
        (assignColor (⟨[none, some 1], [], Finset.range 3, [0]⟩ : HState) 0 2).1
      = (⟨[none, some 1], [], Finset.range 3, [0]⟩ : HState) :=
  unused_tracking_spec.1 (⟨[none, some 1], [], Finset.range 3, [0]⟩ : HState) 0 2
    (by decide) (by decide)

/-- C7: the naive search returns the lexicographically least proper
coloring (the coloring produced by visiting nodes in index order and
colors in increasing order), it skips a color exactly when an
already-colored neighbor holds it, it unassigns the node when the
recursive call fails before moving to the next color, and each recursion
step moves from `node` to `node + 1` over the colors `0..k`. -/
theorem naive_order_spec (g : VecVecGraph) (hg : g.WF) (k : Nat) :
    (∀ out, NaiveColoring.colorRun g k = some out →
      Proper g k out ∧ ∀ out', Proper g k out' → lexLe out out')
    ∧ (∀ (rec : List (Option Nat) → Bool × List (Option Nat)) (node c : Nat)
        (cs : List Nat) (colors : List (Option Nat)),
        conflictN g colors node c = true →
        nloop g rec node (c :: cs) colors = nloop g rec node cs colors)
    ∧ (∀ (rec : List (Option Nat) → Bool × List (Option Nat)) (node c : Nat)
        (cs : List Nat) (colors colors₁ : List (Option Nat)),
        conflictN g colors node c = false →
        rec (colors.set node (some c)) = (false, colors₁) →
        nloop g rec node (c :: cs) colors = nloop g rec node cs (colors₁.set node none))
    ∧ (∀ (fuel node : Nat) (colors : List (Option Nat)), node ≠ g.size →
        nsearch g k (fuel + 1) node colors
          = nloop g (nsearch g k fuel (node + 1)) node (List.range k) colors) := by
  refine ⟨?_, ?_, ?_, ?_⟩
  · intro out h
    rcases naive_cases g hg k with ⟨out', hn, hp, hlex⟩ | ⟨hn, _⟩
    · rw [hn] at h
      obtain rfl : out' = out := Option.some_inj.mp h
      exact ⟨hp, hlex⟩
    · rw [hn] at h
      simp at h
  · intro rec node c cs colors hconf
    simp only [nloop]
    rw [if_pos hconf]
  · intro rec node c cs colors colors₁ hconf hrec
    simp only [nloop]
    rw [if_neg (by rw [hconf]; simp), hrec]
  · intro fuel node colors hne
    simp only [nsearch]
    rw [if_neg hne]

theorem naive_order_spec_witness :
    Proper cycle5 3 [0, 1, 0, 1, 2]
      ∧ ∀ out', Proper cycle5 3 out' → lexLe [0, 1, 0, 1, 2] out' :=
  (naive_order_spec cycle5 (by decide) 3).1 [0, 1, 0, 1, 2] (by decide)

/-- C8: the 5-cycle is not 2-colorable and is 3-colorable, for both
searches, and each successful result passes the validator. -/
theorem cycle5_scenario :
    HeuristicColoring.color cycle5 2 = none
    ∧ NaiveColoring.color cycle5 2 2 = none
    ∧ HeuristicColoring.color cycle5 3 = some [0, 1, 2, 0, 1]
    ∧ validate cycle5 [0, 1, 2, 0, 1] = true
    ∧ NaiveColoring.color cycle5 3 3 = some [0, 1, 0, 1, 2]
    ∧ validate cycle5 [0, 1, 0, 1, 2] = true :=
  ⟨by decide, by decide, by decide, by decide, by decide, by decide⟩

/-- C9: with one adjacency entry per node, neighbor lookup fails with
`OutOfRange` exactly on the indices at or above the graph size, and on
any smaller index it returns that node's neighbor list. -/
theorem neighbors_range_spec (g : VecVecGraph) (hlen : g.edges.length = g.size)
    (node : Nat) :
    (g.neighbors node = Except.error VecVecGraph.GraphError.OutOfRange ↔ g.size ≤ node)
    ∧ (node < g.size → g.neighbors node = Except.ok (g.nbrs node)) := by
  rcases hq : g.edges.get? node with _ | l
  · have hle : g.edges.length ≤ node := List.get?_eq_none.mp hq
    have hstep : g.neighbors node = Except.error VecVecGraph.GraphError.OutOfRange := by
      simp only [VecVecGraph.neighbors]
      rw [hq]
    exact ⟨⟨fun _ => by omega, fun _ => hstep⟩, fun hlt => by omega⟩
  · have hlt : node < g.edges.length := by
      by_contra hge
      rw [List.get?_eq_none.mpr (by omega)] at hq
      cases hq
    have hstep : g.neighbors node = Except.ok l := by
      simp only [VecVecGraph.neighbors]
      rw [hq]
    have hnb : g.nbrs node = l := by
      rw [VecVecGraph.nbrs, List.getD_eq_getElem?_getD, ← List.get?_eq_getElem?, hq]
      rfl
    refine ⟨⟨fun herr => ?_, fun hge => by omega⟩, fun _ => by rw [hstep, hnb]⟩
    rw [hstep] at herr
    simp at herr

theorem neighbors_range_spec_witness :
    ((cycle5.neighbors 7 = Except.error VecVecGraph.GraphError.OutOfRange ↔ cycle5.size ≤ 7)
      ∧ (7 < cycle5.size → cycle5.neighbors 7 = Except.ok (cycle5.nbrs 7)))
    ∧ ((cycle5.neighbors 2 = Except.error VecVecGraph.GraphError.OutOfRange ↔ cycle5.size ≤ 2)
      ∧ (2 < cycle5.size → cycle5.neighbors 2 = Except.ok (cycle5.nbrs 2))) :=
  ⟨neighbors_range_spec cycle5 (by decide) 7, neighbors_range_spec cycle5 (by decide) 2⟩

/-- C10: the color count passed to `NaiveColoring::color` is ignored: the
result only depends on the create-time budget. -/
theorem naive_color_ignores_argument (g : VecVecGraph) (k m₁ m₂ : Nat) :
    NaiveColoring.color g k m₁ = NaiveColoring.color g k m₂ := rfl

end MLCNP
